import Mathlib

set_option maxHeartbeats 1600000

/-!
# Verification of the Spellcaster Portal indexing and search engine

A shallow embedding of the core of `src/spellcaster_portal.py`: the text
cleaner (`clean_text`), the query compiler (`_ftsify`), the reindexer
(`index_library`), the single-document fast path (`index_single_pdf`),
the facet counter (`_facet_counts` / `api_facets`) and the search
substring fallback (`api_search`).

Strings are modelled as `List Char`.  Python behaviour that depends on
character classes (`str.strip`, regex `\w`, `[a-z]`, `[A-Z]`) is modelled
on the ASCII range plus the explicitly listed Unicode whitespace set;
every concrete string this development evaluates those classes on is
ASCII or uses only the listed characters.
-/

namespace Spellcaster

/-! ## Character classes -/

/-- The whitespace set of Python `str.strip()` / `str.isspace()` and of the
regex class `\s`: ASCII whitespace, the C1 separators, NO-BREAK SPACE and
the Unicode space separators. -/
def pyWs (c : Char) : Bool :=
  c = ' ' || c = '\t' || c = '\n' || c = '\r' || c = '\x0b' || c = '\x0c' ||
  (0x1c ≤ c.toNat && c.toNat ≤ 0x1f) || c.toNat = 0x85 || c.toNat = 0xa0 ||
  c.toNat = 0x1680 || (0x2000 ≤ c.toNat && c.toNat ≤ 0x200a) ||
  c.toNat = 0x2028 || c.toNat = 0x2029 || c.toNat = 0x202f ||
  c.toNat = 0x205f || c.toNat = 0x3000

/-- The regex class `[ \t]` used by `clean_text` (rules 5 and 8 of the
pipeline). -/
def isSpaceTab (c : Char) : Bool := c = ' ' || c = '\t'

/-- Python regex `\w` (word character), modelled on the ASCII range:
letters, digits and underscore. -/
def wordChar (c : Char) : Bool := c.isAlphanum || c = '_'

/-- Python `str.strip()`: drop leading and trailing whitespace. -/
def pyStrip (s : List Char) : List Char :=
  ((s.dropWhile pyWs).reverse.dropWhile pyWs).reverse

/-! ## The text cleaner (`clean_text`, src/spellcaster_portal.py lines 248-259)

```python
def clean_text(raw: str) -> str:
    if not raw:
        return ""
    t = unicodedata.normalize("NFC", raw)
    t = t.replace("\r\n", "\n").replace("\r", "\n")
    t = t.replace("­", "").replace("​", "").replace("⁠", "")
    t = re.sub(r"-\n(?=\w)", "", t)
    t = re.sub(r"[ \t]*\n[ \t]*", " ", t)
    t = re.sub(r"(?<=[a-z])(?=[A-Z])", " ", t)
    t = re.sub(r"([.,;:!?])(?=[A-Za-z])", r"\1 ", t)
    t = re.sub(r"[ \t]{2,}", " ", t)
    return t.strip()
```
-/

/-- Modelled from the spec: `unicodedata.normalize("NFC", raw)` is the
external Unicode canonical-composition library routine (the module under
verification only calls it).  It is modelled as composition of adjacent
canonical pairs, with the composition table restricted to the one pair
this development ever evaluates it on: LATIN SMALL LETTER E (U+0065)
followed by COMBINING ACUTE ACCENT (U+0301) composes to U+00E9.  On
strings without combining marks — in particular on every all-ASCII
string — NFC is the identity, which the model reflects. -/
def composePair (a b : Char) : Option Char :=
  if a = 'e' && b = Char.ofNat 0x301 then some (Char.ofNat 0xe9) else none

/-- See `composePair`: canonical composition of adjacent pairs, carrying
the character currently open for composition. -/
def nfcGo (a : Char) : List Char → List Char
  | [] => [a]
  | b :: rest =>
    match composePair a b with
    | some c => nfcGo c rest
    | none => a :: nfcGo b rest

/-- See `composePair`: the model of `unicodedata.normalize("NFC", raw)`. -/
def nfc : List Char → List Char
  | [] => []
  | a :: rest => nfcGo a rest

/-- Is the head of the list a newline? -/
def nlHead : List Char → Bool
  | '\n' :: _ => true
  | _ => false

/-- `t.replace("\r\n", "\n").replace("\r", "\n")`: a CR immediately
followed by LF is deleted (the pair becomes the LF alone), every other CR
becomes LF. -/
def normNewlines : List Char → List Char
  | [] => []
  | c :: rest =>
    if c = '\r' && nlHead rest then normNewlines rest
    else if c = '\r' then '\n' :: normNewlines rest
    else c :: normNewlines rest

/-- Soft hyphen (U+00AD), zero-width space (U+200B) and word joiner
(U+2060), removed by the three `t.replace(..., "")` calls. -/
def invisibleChar (c : Char) : Bool :=
  c = Char.ofNat 0xad || c = Char.ofNat 0x200b || c = Char.ofNat 0x2060

/-- The three `t.replace(invisible, "")` calls of `clean_text`. -/
def rmInvisible (s : List Char) : List Char := s.filter (fun c => !invisibleChar c)

/-- Does the list start with a newline followed by a word character
(the `\n(?=\w)` part of the de-hyphenation pattern)? -/
def dashNlWord : List Char → Bool
  | '\n' :: c :: _ => wordChar c
  | _ => false

/-- `re.sub(r"-\n(?=\w)", "", t)`: delete a hyphen-newline pair when the
next character is a word character (the lookahead is not consumed, so
scanning resumes at that character).  The flag records that the previous
character was the hyphen of a match, so the current newline is the other
deleted character. -/
def dehyphAux : Bool → List Char → List Char
  | _, [] => []
  | true, _ :: rest => dehyphAux false rest
  | false, c :: rest =>
    if c = '-' && dashNlWord rest then dehyphAux true rest
    else c :: dehyphAux false rest

/-- `re.sub(r"-\n(?=\w)", "", t)`; see `dehyphAux`. -/
def dehyphenate (s : List Char) : List Char := dehyphAux false s

/-- Does this run of spaces/tabs run into a newline?  Used to decide
whether a space/tab belongs to a `[ \t]*\n[ \t]*` match. -/
def runIntoNl : List Char → Bool
  | [] => false
  | c :: rest => if isSpaceTab c then runIntoNl rest else c = '\n'

/-- `re.sub(r"[ \t]*\n[ \t]*", " ", t)`, character by character.  A match
is a (possibly empty) run of spaces/tabs, a newline, and a (possibly
empty) greedy run of spaces/tabs, all replaced by one space.  The flag
records whether we are inside the trailing space/tab run of a match just
replaced (those characters were consumed by the match); a space/tab whose
run reaches a newline belongs to the leading run of that newline's match
and is likewise consumed; the newline itself becomes the single
replacement space. -/
def collapseNlAux : Bool → List Char → List Char
  | _, [] => []
  | skipping, c :: rest =>
    if skipping && isSpaceTab c then collapseNlAux true rest
    else if c = '\n' then ' ' :: collapseNlAux true rest
    else if !skipping && isSpaceTab c && runIntoNl rest then collapseNlAux false rest
    else c :: collapseNlAux false rest

/-- `re.sub(r"[ \t]*\n[ \t]*", " ", t)`; see `collapseNlAux`. -/
def collapseNewlines (s : List Char) : List Char := collapseNlAux false s

/-- Is the head of the list an ASCII uppercase letter? -/
def upperHead : List Char → Bool
  | c :: _ => c.isUpper
  | [] => false

/-- `re.sub(r"(?<=[a-z])(?=[A-Z])", " ", t)`: insert a space at every
boundary where an ASCII lowercase letter is immediately followed by an
ASCII uppercase letter. -/
def spaceLowerUpper : List Char → List Char
  | [] => []
  | a :: rest =>
    if a.isLower && upperHead rest then a :: ' ' :: spaceLowerUpper rest
    else a :: spaceLowerUpper rest

/-- The regex class `[.,;:!?]`. -/
def sentencePunct (c : Char) : Bool :=
  c = '.' || c = ',' || c = ';' || c = ':' || c = '!' || c = '?'

/-- Is the head of the list an ASCII letter? -/
def alphaHead : List Char → Bool
  | c :: _ => c.isAlpha
  | [] => false

/-- `re.sub(r"([.,;:!?])(?=[A-Za-z])", r"\1 ", t)`: insert a space after
sentence punctuation immediately followed by an ASCII letter. -/
def spaceAfterPunct : List Char → List Char
  | [] => []
  | a :: rest =>
    if sentencePunct a && alphaHead rest then a :: ' ' :: spaceAfterPunct rest
    else a :: spaceAfterPunct rest

/-- `re.sub(r"[ \t]{2,}", " ", t)`: a maximal run of two or more
spaces/tabs becomes one space; a lone space or tab is left as it is.  The
flag records whether we are consuming the remainder of a run already
replaced by one space. -/
def collapseSpAux : Bool → List Char → List Char
  | _, [] => []
  | true, c :: rest =>
    if isSpaceTab c then collapseSpAux true rest else c :: collapseSpAux false rest
  | false, c :: rest =>
    if isSpaceTab c && (match rest with | d :: _ => isSpaceTab d | [] => false) then
      ' ' :: collapseSpAux true rest
    else c :: collapseSpAux false rest

/-- `re.sub(r"[ \t]{2,}", " ", t)`; see `collapseSpAux`. -/
def collapseSpaces (s : List Char) : List Char := collapseSpAux false s

/-- `clean_text` (src/spellcaster_portal.py lines 248-259): the
order-sensitive cleaning pipeline. -/
def clean_text (raw : List Char) : List Char :=
  if raw = [] then []
  else
    pyStrip (collapseSpaces (spaceAfterPunct (spaceLowerUpper
      (collapseNewlines (dehyphenate (rmInvisible (normNewlines (nfc raw))))))))

/-! ### Sanity checks for the cleaner -/

example : clean_text "wonder-\nful".data = "wonderful".data := by decide
example : clean_text "badSpacing".data = "bad Spacing".data := by decide
example : clean_text "end.Next".data = "end. Next".data := by decide
example : clean_text "  \t \n ".data = [] := by decide
example : clean_text "a  b\n\nc".data = "a b c".data := by decide

/-! ### Whitespace-only input yields the empty string -/

/-- Every character of the list is Python whitespace. -/
@[reducible] def AllWs (s : List Char) : Prop := ∀ c ∈ s, pyWs c = true

theorem allWs_nfcGo {a : Char} {s : List Char} (ha : pyWs a = true)
    (hs : AllWs s) : AllWs (nfcGo a s) := by
  induction s generalizing a with
  | nil => simpa [nfcGo, AllWs] using ha
  | cons b rest ih =>
    have hb : pyWs b = true := hs b (by simp)
    have hrest : AllWs rest := fun c hc => hs c (by simp [hc])
    have hcomp : composePair a b = none := by
      unfold composePair
      have : a ≠ 'e' := by
        intro h; rw [h] at ha; exact absurd ha (by decide)
      simp [this]
    intro c hc
    rw [nfcGo, hcomp] at hc
    rcases List.mem_cons.mp hc with h | h
    · exact h ▸ ha
    · exact ih hb hrest c h

theorem allWs_nfc {s : List Char} (hs : AllWs s) : AllWs (nfc s) := by
  cases s with
  | nil => exact hs
  | cons a rest =>
    exact allWs_nfcGo (hs a (by simp)) (fun c hc => hs c (by simp [hc]))

theorem allWs_normNewlines {s : List Char} (hs : AllWs s) :
    AllWs (normNewlines s) := by
  induction s with
  | nil => exact hs
  | cons c rest ih =>
    have hc : pyWs c = true := hs c (by simp)
    have hrest : AllWs rest := fun d hd => hs d (by simp [hd])
    intro d hd
    simp only [normNewlines] at hd
    split at hd
    · exact ih hrest d hd
    · split at hd
      · rcases List.mem_cons.mp hd with h | h
        · subst h; decide
        · exact ih hrest d h
      · rcases List.mem_cons.mp hd with h | h
        · exact h ▸ hc
        · exact ih hrest d h

theorem allWs_rmInvisible {s : List Char} (hs : AllWs s) :
    AllWs (rmInvisible s) :=
  fun c hc => hs c (List.mem_of_mem_filter hc)

theorem allWs_dehyphAux {b : Bool} {s : List Char} (hs : AllWs s) :
    AllWs (dehyphAux b s) := by
  induction s generalizing b with
  | nil => intro d hd; simp [dehyphAux] at hd
  | cons c rest ih =>
    have hc : pyWs c = true := hs c (by simp)
    have hrest : AllWs rest := fun d hd => hs d (by simp [hd])
    intro d hd
    cases b with
    | true =>
      simp only [dehyphAux] at hd
      exact ih hrest d hd
    | false =>
      simp only [dehyphAux] at hd
      split at hd
      · exact ih hrest d hd
      · rcases List.mem_cons.mp hd with h | h
        · exact h ▸ hc
        · exact ih hrest d h

theorem allWs_collapseNlAux {b : Bool} {s : List Char} (hs : AllWs s) :
    AllWs (collapseNlAux b s) := by
  induction s generalizing b with
  | nil => intro d hd; simp [collapseNlAux] at hd
  | cons c rest ih =>
    have hc : pyWs c = true := hs c (by simp)
    have hrest : AllWs rest := fun d hd => hs d (by simp [hd])
    intro d hd
    simp only [collapseNlAux] at hd
    split at hd
    · exact ih hrest d hd
    · split at hd
      · rcases List.mem_cons.mp hd with h | h
        · subst h; decide
        · exact ih hrest d h
      · split at hd
        · exact ih hrest d hd
        · rcases List.mem_cons.mp hd with h | h
          · exact h ▸ hc
          · exact ih hrest d h

theorem allWs_spaceLowerUpper {s : List Char} (hs : AllWs s) :
    AllWs (spaceLowerUpper s) := by
  induction s with
  | nil => exact hs
  | cons a rest ih =>
    have ha : pyWs a = true := hs a (by simp)
    have hrest : AllWs rest := fun d hd => hs d (by simp [hd])
    intro d hd
    simp only [spaceLowerUpper] at hd
    split at hd
    · rcases List.mem_cons.mp hd with h | h
      · exact h ▸ ha
      · rcases List.mem_cons.mp h with h' | h'
        · subst h'; decide
        · exact ih hrest d h'
    · rcases List.mem_cons.mp hd with h | h
      · exact h ▸ ha
      · exact ih hrest d h

theorem allWs_spaceAfterPunct {s : List Char} (hs : AllWs s) :
    AllWs (spaceAfterPunct s) := by
  induction s with
  | nil => exact hs
  | cons a rest ih =>
    have ha : pyWs a = true := hs a (by simp)
    have hrest : AllWs rest := fun d hd => hs d (by simp [hd])
    intro d hd
    simp only [spaceAfterPunct] at hd
    split at hd
    · rcases List.mem_cons.mp hd with h | h
      · exact h ▸ ha
      · rcases List.mem_cons.mp h with h' | h'
        · subst h'; decide
        · exact ih hrest d h'
    · rcases List.mem_cons.mp hd with h | h
      · exact h ▸ ha
      · exact ih hrest d h

theorem allWs_collapseSpAux {b : Bool} {s : List Char} (hs : AllWs s) :
    AllWs (collapseSpAux b s) := by
  induction s generalizing b with
  | nil => intro d hd; simp [collapseSpAux] at hd
  | cons c rest ih =>
    have hc : pyWs c = true := hs c (by simp)
    have hrest : AllWs rest := fun d hd => hs d (by simp [hd])
    intro d hd
    cases b with
    | true =>
      simp only [collapseSpAux] at hd
      split at hd
      · exact ih hrest d hd
      · rcases List.mem_cons.mp hd with h | h
        · exact h ▸ hc
        · exact ih hrest d h
    | false =>
      simp only [collapseSpAux] at hd
      split at hd
      · rcases List.mem_cons.mp hd with h | h
        · subst h; decide
        · exact ih hrest d h
      · rcases List.mem_cons.mp hd with h | h
        · exact h ▸ hc
        · exact ih hrest d h

theorem pyStrip_allWs {s : List Char} (hs : AllWs s) : pyStrip s = [] := by
  unfold pyStrip
  have h1 : s.dropWhile pyWs = [] := List.dropWhile_eq_nil_iff.mpr hs
  rw [h1]
  simp

/-- C5: the text cleaner maps `"wonder-\nful"` to `"wonderful"`,
`"badSpacing"` to `"bad Spacing"`, `"end.Next"` to `"end. Next"`, and
every empty or whitespace-only input to the empty string. -/
theorem clean_text_examples_and_whitespace :
    clean_text "wonder-\nful".data = "wonderful".data ∧
    clean_text "badSpacing".data = "bad Spacing".data ∧
    clean_text "end.Next".data = "end. Next".data ∧
    ∀ s : List Char, AllWs s → clean_text s = [] := by
  refine ⟨by decide, by decide, by decide, fun s hs => ?_⟩
  unfold clean_text
  split
  · rfl
  · exact pyStrip_allWs (allWs_collapseSpAux (allWs_spaceAfterPunct
      (allWs_spaceLowerUpper (allWs_collapseNlAux (allWs_dehyphAux
        (allWs_rmInvisible (allWs_normNewlines (allWs_nfc hs))))))))

/-- Witness for C5 at the concrete whitespace-only input `"  \t\n "`. -/
theorem clean_text_whitespace_witness :
    AllWs "  \t\n ".data ∧ clean_text "  \t\n ".data = [] :=
  ⟨by decide, clean_text_examples_and_whitespace.2.2.2 "  \t\n ".data (by decide)⟩

/-! ### Idempotence of the cleaner (C10)

`clean_text` is not idempotent on arbitrary Unicode input: removing a soft
hyphen can leave a combining mark adjacent to a base letter, and the
second pass's NFC then composes the pair.  On ASCII input, where NFC is
the identity, the pipeline is idempotent: its output contains no carriage
return, no newline, no lowercase-uppercase adjacency, no
punctuation-letter adjacency, no space/tab run of length two, and no
leading or trailing whitespace, so every stage of a second pass is the
identity. -/

/-- Every character of the list is ASCII. -/
@[reducible] def AllAscii (s : List Char) : Prop := ∀ c ∈ s, c.toNat ≤ 127

theorem composePair_ascii {a b : Char} (hb : b.toNat ≤ 127) :
    composePair a b = none := by
  unfold composePair
  have : b ≠ Char.ofNat 0x301 := by
    intro h; subst h; exact absurd hb (by decide)
  simp [this]

theorem nfcGo_ascii {a : Char} {s : List Char} (hs : AllAscii s) :
    nfcGo a s = a :: s := by
  induction s generalizing a with
  | nil => rfl
  | cons b rest ih =>
    have hb : b.toNat ≤ 127 := hs b (by simp)
    rw [nfcGo, composePair_ascii hb, ih (fun c hc => hs c (by simp [hc]))]

theorem nfc_ascii {s : List Char} (hs : AllAscii s) : nfc s = s := by
  cases s with
  | nil => rfl
  | cons a rest => exact nfcGo_ascii (fun c hc => hs c (by simp [hc]))

/-! Characters of each stage's output: the stages only delete characters
or insert spaces/newlines. -/

theorem mem_normNewlines {c : Char} {s : List Char}
    (h : c ∈ normNewlines s) : c ∈ s ∨ c = '\n' := by
  induction s with
  | nil => exact absurd h (by simp [normNewlines])
  | cons a rest ih =>
    simp only [normNewlines] at h
    split at h
    · rcases ih h with h' | h'
      · exact Or.inl (by simp [h'])
      · exact Or.inr h'
    · split at h
      · rcases List.mem_cons.mp h with h' | h'
        · exact Or.inr h'
        · rcases ih h' with h'' | h''
          · exact Or.inl (by simp [h''])
          · exact Or.inr h''
      · rcases List.mem_cons.mp h with h' | h'
        · exact Or.inl (by simp [h'])
        · rcases ih h' with h'' | h''
          · exact Or.inl (by simp [h''])
          · exact Or.inr h''

theorem mem_rmInvisible {c : Char} {s : List Char}
    (h : c ∈ rmInvisible s) : c ∈ s :=
  List.mem_of_mem_filter h

theorem mem_dehyphAux {c : Char} {b : Bool} {s : List Char}
    (h : c ∈ dehyphAux b s) : c ∈ s := by
  induction s generalizing b with
  | nil => exact absurd h (by simp [dehyphAux])
  | cons a rest ih =>
    cases b with
    | true =>
      simp only [dehyphAux] at h
      exact List.mem_cons_of_mem _ (ih h)
    | false =>
      simp only [dehyphAux] at h
      split at h
      · exact List.mem_cons_of_mem _ (ih h)
      · rcases List.mem_cons.mp h with h' | h'
        · exact h' ▸ List.mem_cons_self _ _
        · exact List.mem_cons_of_mem _ (ih h')

theorem mem_collapseNlAux {c : Char} {b : Bool} {s : List Char}
    (h : c ∈ collapseNlAux b s) : c ∈ s ∨ c = ' ' := by
  induction s generalizing b with
  | nil => exact absurd h (by simp [collapseNlAux])
  | cons a rest ih =>
    simp only [collapseNlAux] at h
    split at h
    · rcases ih h with h' | h'
      · exact Or.inl (by simp [h'])
      · exact Or.inr h'
    · split at h
      · rcases List.mem_cons.mp h with h' | h'
        · exact Or.inr h'
        · rcases ih h' with h'' | h''
          · exact Or.inl (by simp [h''])
          · exact Or.inr h''
      · split at h
        · rcases ih h with h' | h'
          · exact Or.inl (by simp [h'])
          · exact Or.inr h'
        · rcases List.mem_cons.mp h with h' | h'
          · exact Or.inl (by simp [h'])
          · rcases ih h' with h'' | h''
            · exact Or.inl (by simp [h''])
            · exact Or.inr h''

theorem mem_spaceLowerUpper {c : Char} {s : List Char}
    (h : c ∈ spaceLowerUpper s) : c ∈ s ∨ c = ' ' := by
  induction s with
  | nil => exact absurd h (by simp [spaceLowerUpper])
  | cons a rest ih =>
    simp only [spaceLowerUpper] at h
    split at h
    · rcases List.mem_cons.mp h with h' | h'
      · exact Or.inl (by simp [h'])
      · rcases List.mem_cons.mp h' with h'' | h''
        · exact Or.inr h''
        · rcases ih h'' with h3 | h3
          · exact Or.inl (by simp [h3])
          · exact Or.inr h3
    · rcases List.mem_cons.mp h with h' | h'
      · exact Or.inl (by simp [h'])
      · rcases ih h' with h'' | h''
        · exact Or.inl (by simp [h''])
        · exact Or.inr h''

theorem mem_spaceAfterPunct {c : Char} {s : List Char}
    (h : c ∈ spaceAfterPunct s) : c ∈ s ∨ c = ' ' := by
  induction s with
  | nil => exact absurd h (by simp [spaceAfterPunct])
  | cons a rest ih =>
    simp only [spaceAfterPunct] at h
    split at h
    · rcases List.mem_cons.mp h with h' | h'
      · exact Or.inl (by simp [h'])
      · rcases List.mem_cons.mp h' with h'' | h''
        · exact Or.inr h''
        · rcases ih h'' with h3 | h3
          · exact Or.inl (by simp [h3])
          · exact Or.inr h3
    · rcases List.mem_cons.mp h with h' | h'
      · exact Or.inl (by simp [h'])
      · rcases ih h' with h'' | h''
        · exact Or.inl (by simp [h''])
        · exact Or.inr h''

theorem mem_collapseSpAux {c : Char} {b : Bool} {s : List Char}
    (h : c ∈ collapseSpAux b s) : c ∈ s ∨ c = ' ' := by
  induction s generalizing b with
  | nil => exact absurd h (by simp [collapseSpAux])
  | cons a rest ih =>
    cases b with
    | true =>
      simp only [collapseSpAux] at h
      split at h
      · rcases ih h with h' | h'
        · exact Or.inl (by simp [h'])
        · exact Or.inr h'
      · rcases List.mem_cons.mp h with h' | h'
        · exact Or.inl (by simp [h'])
        · rcases ih h' with h'' | h''
          · exact Or.inl (by simp [h''])
          · exact Or.inr h''
    | false =>
      simp only [collapseSpAux] at h
      split at h
      · rcases List.mem_cons.mp h with h' | h'
        · exact Or.inr h'
        · rcases ih h' with h'' | h''
          · exact Or.inl (by simp [h''])
          · exact Or.inr h''
      · rcases List.mem_cons.mp h with h' | h'
        · exact Or.inl (by simp [h'])
        · rcases ih h' with h'' | h''
          · exact Or.inl (by simp [h''])
          · exact Or.inr h''

theorem pyStrip_infix_self (s : List Char) : pyStrip s <:+: s := by
  unfold pyStrip
  have h1 : s.dropWhile pyWs <:+ s := List.dropWhile_suffix pyWs
  have h2 : (s.dropWhile pyWs).reverse.dropWhile pyWs <:+ (s.dropWhile pyWs).reverse :=
    List.dropWhile_suffix pyWs
  have h3 : ((s.dropWhile pyWs).reverse.dropWhile pyWs).reverse <+: s.dropWhile pyWs := by
    have := List.reverse_prefix.mpr h2
    simpa using this
  exact (h3.isInfix).trans h1.isInfix

theorem mem_pyStrip {c : Char} {s : List Char} (h : c ∈ pyStrip s) : c ∈ s :=
  (pyStrip_infix_self s).subset h

/-! Output of each stage contains no character the later stages rewrite. -/

theorem notCR_normNewlines {s : List Char} : '\r' ∉ normNewlines s := by
  induction s with
  | nil => simp [normNewlines]
  | cons a rest ih =>
    simp only [normNewlines]
    split
    · exact ih
    · split
      · intro h
        rcases List.mem_cons.mp h with h' | h'
        · exact absurd h'.symm (by decide)
        · exact ih h'
      · rename_i h1 h2
        intro h
        rcases List.mem_cons.mp h with h' | h'
        · exact h2 h'.symm
        · exact ih h'

theorem runIntoNl_mem {s : List Char} (h : runIntoNl s = true) : '\n' ∈ s := by
  induction s with
  | nil => exact absurd h (by simp [runIntoNl])
  | cons a rest ih =>
    rw [runIntoNl] at h
    split at h
    · exact List.mem_cons_of_mem _ (ih h)
    · have : a = '\n' := by simpa using h
      simp [this]

theorem dashNlWord_mem {s : List Char} (h : dashNlWord s = true) : '\n' ∈ s := by
  unfold dashNlWord at h
  split at h
  · simp
  · exact absurd h (by simp)

theorem noNl_collapseNlAux {b : Bool} {s : List Char} :
    '\n' ∉ collapseNlAux b s := by
  induction s generalizing b with
  | nil => simp [collapseNlAux]
  | cons a rest ih =>
    simp only [collapseNlAux]
    split
    · exact ih
    · split
      · intro h
        rcases List.mem_cons.mp h with h' | h'
        · exact absurd h'.symm (by decide)
        · exact ih h'
      · split
        · exact ih
        · rename_i h1 h2 h3
          intro h
          rcases List.mem_cons.mp h with h' | h'
          · exact h2 h'.symm
          · exact ih h'

/-! Identity lemmas: each stage leaves a list alone when the pattern it
rewrites is absent. -/

theorem normNewlines_id {s : List Char} (h : '\r' ∉ s) : normNewlines s = s := by
  induction s with
  | nil => rfl
  | cons a rest ih =>
    have ha : a ≠ '\r' := fun hc => h (by simp [hc])
    have hrest : '\r' ∉ rest := fun hc => h (by simp [hc])
    simp only [normNewlines, ha]
    simp [ih hrest]

theorem rmInvisible_id {s : List Char} (h : ∀ c ∈ s, invisibleChar c = false) :
    rmInvisible s = s :=
  List.filter_eq_self.mpr (fun c hc => by simp [h c hc])

theorem dehyphAux_id {s : List Char} (h : '\n' ∉ s) : dehyphAux false s = s := by
  induction s with
  | nil => rfl
  | cons a rest ih =>
    have hrest : '\n' ∉ rest := fun hc => h (by simp [hc])
    have hd : ¬(a = '-' && dashNlWord rest) = true := by
      intro hc
      exact hrest (dashNlWord_mem (Bool.and_elim_right hc))
    simp only [dehyphAux]
    rw [if_neg hd, ih hrest]

theorem collapseNlAux_id {s : List Char} (h : '\n' ∉ s) :
    collapseNlAux false s = s := by
  induction s with
  | nil => rfl
  | cons a rest ih =>
    have ha : a ≠ '\n' := fun hc => h (by simp [hc])
    have hrest : '\n' ∉ rest := fun hc => h (by simp [hc])
    have hrun : ¬(!false && isSpaceTab a && runIntoNl rest) = true := by
      intro hc
      exact hrest (runIntoNl_mem (Bool.and_elim_right hc))
    simp only [collapseNlAux, Bool.false_and, Bool.false_eq_true,
      if_false, ha, if_neg hrun]
    simp [ih hrest]

/-! Adjacent-pair properties of the output, as `List.Chain'` facts. -/

/-- A lowercase letter directly followed by an uppercase letter (the
pattern of pipeline rule 6). -/
def luPair (a b : Char) : Bool := a.isLower && b.isUpper

/-- Sentence punctuation directly followed by a letter (rule 7). -/
def puPair (a b : Char) : Bool := sentencePunct a && b.isAlpha

/-- Two adjacent spaces/tabs (rule 8). -/
def stPair (a b : Char) : Bool := isSpaceTab a && isSpaceTab b

theorem head?_spaceLowerUpper (s : List Char) :
    (spaceLowerUpper s).head? = s.head? := by
  cases s with
  | nil => rfl
  | cons a rest => simp only [spaceLowerUpper]; split <;> rfl

theorem head?_spaceAfterPunct (s : List Char) :
    (spaceAfterPunct s).head? = s.head? := by
  cases s with
  | nil => rfl
  | cons a rest => simp only [spaceAfterPunct]; split <;> rfl

theorem chain'_lu_spaceLowerUpper (s : List Char) :
    (spaceLowerUpper s).Chain' (fun a b => luPair a b = false) := by
  induction s with
  | nil => simp [spaceLowerUpper]
  | cons a rest ih =>
    simp only [spaceLowerUpper]
    split
    · refine List.chain'_cons.mpr ⟨?_, List.chain'_cons'.mpr ⟨?_, ih⟩⟩
      · simp [luPair, show (' ').isUpper = false by decide]
      · intro y hy
        simp [luPair, show (' ').isLower = false by decide]
    · rename_i hcond
      refine List.chain'_cons'.mpr ⟨?_, ih⟩
      intro y hy
      rw [head?_spaceLowerUpper] at hy
      cases rest with
      | nil => simp at hy
      | cons b r =>
        have hb : b = y := by simpa using hy
        subst hb
        simp only [upperHead] at hcond
        simpa [luPair] using hcond

theorem chain'_pu_spaceAfterPunct (s : List Char) :
    (spaceAfterPunct s).Chain' (fun a b => puPair a b = false) := by
  induction s with
  | nil => simp [spaceAfterPunct]
  | cons a rest ih =>
    simp only [spaceAfterPunct]
    split
    · refine List.chain'_cons.mpr ⟨?_, List.chain'_cons'.mpr ⟨?_, ih⟩⟩
      · simp [puPair, show (' ').isAlpha = false by decide]
      · intro y hy
        simp [puPair, show sentencePunct ' ' = false by decide]
    · rename_i hcond
      refine List.chain'_cons'.mpr ⟨?_, ih⟩
      intro y hy
      rw [head?_spaceAfterPunct] at hy
      cases rest with
      | nil => simp at hy
      | cons b r =>
        have hb : b = y := by simpa using hy
        subst hb
        simp only [alphaHead] at hcond
        simpa [puPair] using hcond

theorem chain'_lu_spaceAfterPunct {s : List Char}
    (h : s.Chain' (fun a b => luPair a b = false)) :
    (spaceAfterPunct s).Chain' (fun a b => luPair a b = false) := by
  induction s with
  | nil => simp [spaceAfterPunct]
  | cons a rest ih =>
    have hrest := (List.chain'_cons'.mp h).2
    have hpair := (List.chain'_cons'.mp h).1
    simp only [spaceAfterPunct]
    split
    · refine List.chain'_cons.mpr
        ⟨by simp [luPair, show (' ').isUpper = false by decide],
         List.chain'_cons'.mpr
           ⟨fun y hy => by simp [luPair, show (' ').isLower = false by decide],
            ih hrest⟩⟩
    · refine List.chain'_cons'.mpr ⟨?_, ih hrest⟩
      intro y hy
      rw [head?_spaceAfterPunct] at hy
      exact hpair y hy

/-- Head of the output of `collapseSpAux true`: the first character not
consumed by the run being collapsed is not a space/tab. -/
theorem head_collapseSpAux_true_not_st {s : List Char} {y : Char}
    (hy : y ∈ (collapseSpAux true s).head?) : isSpaceTab y = false := by
  induction s with
  | nil => simp [collapseSpAux] at hy
  | cons c rest ih =>
    simp only [collapseSpAux] at hy
    split at hy
    · exact ih hy
    · rename_i hc
      have hcy : c = y := by simpa using hy
      subst hcy
      simpa using hc

/-- Head of the output of `collapseSpAux false`: either the head of the
input, or the replacement space of a collapsed run that starts the
input. -/
theorem head?_collapseSpAux_false (s : List Char) :
    (collapseSpAux false s).head? = s.head? ∨
      ((collapseSpAux false s).head? = some ' ' ∧
        ∃ d r, s = d :: r ∧ isSpaceTab d = true) := by
  cases s with
  | nil => exact Or.inl rfl
  | cons d r =>
    simp only [collapseSpAux]
    split
    · rename_i hcond
      exact Or.inr ⟨rfl, d, r, rfl, (Bool.and_eq_true _ _ |>.mp hcond).1⟩
    · exact Or.inl rfl

theorem chain'_collapseSpAux_preserve {bad : Char → Char → Bool}
    (hsp1 : ∀ x, bad x ' ' = false) (hsp2 : ∀ y, bad ' ' y = false)
    {s : List Char} (h : s.Chain' (fun a b => bad a b = false)) :
    ∀ fl : Bool, (collapseSpAux fl s).Chain' (fun a b => bad a b = false) := by
  induction s with
  | nil => intro fl; cases fl <;> simp [collapseSpAux]
  | cons a rest ih =>
    intro fl
    have hrest := (List.chain'_cons'.mp h).2
    have hpair := (List.chain'_cons'.mp h).1
    have htail : ∀ y ∈ (collapseSpAux false rest).head?, bad a y = false := by
      intro y hy
      rcases head?_collapseSpAux_false rest with hh | ⟨hh, d, r, hdr, hst⟩
      · rw [hh] at hy
        exact hpair y hy
      · rw [hh] at hy
        have hsp : ' ' = y := by simpa using hy
        subst hsp
        exact hsp1 a
    cases fl with
    | true =>
      simp only [collapseSpAux]
      split
      · exact ih hrest true
      · exact List.chain'_cons'.mpr ⟨htail, ih hrest false⟩
    | false =>
      simp only [collapseSpAux]
      split
      · refine List.chain'_cons'.mpr ⟨fun y hy => hsp2 y, ih hrest true⟩
      · exact List.chain'_cons'.mpr ⟨htail, ih hrest false⟩

theorem chain'_st_collapseSpAux (s : List Char) :
    ∀ fl : Bool, (collapseSpAux fl s).Chain' (fun a b => stPair a b = false) := by
  induction s with
  | nil => intro fl; cases fl <;> simp [collapseSpAux]
  | cons c rest ih =>
    intro fl
    cases fl with
    | true =>
      simp only [collapseSpAux]
      split
      · exact ih true
      · rename_i hc
        simp only [Bool.not_eq_true] at hc
        refine List.chain'_cons'.mpr ⟨?_, ih false⟩
        intro y hy
        simp [stPair, hc]
    | false =>
      simp only [collapseSpAux]
      split
      · refine List.chain'_cons'.mpr ⟨?_, ih true⟩
        intro y hy
        simp [stPair, head_collapseSpAux_true_not_st hy]
      · rename_i hcond
        refine List.chain'_cons'.mpr ⟨?_, ih false⟩
        intro y hy
        by_cases hcy : isSpaceTab c = true
        · rcases head?_collapseSpAux_false rest with hh | ⟨hh, d, r, hdr, hst⟩
          · rw [hh] at hy
            cases rest with
            | nil => simp at hy
            | cons b r2 =>
              have hby : b = y := by simpa using hy
              subst hby
              have hb : isSpaceTab b = false := by
                by_contra hb2
                simp only [Bool.not_eq_false] at hb2
                exact hcond (by simp [hcy, hb2])
              simp [stPair, hb]
          · subst hdr
            exact absurd (by simp [hcy, hst]) hcond
        · simp only [Bool.not_eq_true] at hcy
          simp [stPair, hcy]

/-! Remaining identity lemmas, driven by the `Chain'` facts. -/

theorem spaceLowerUpper_id {s : List Char}
    (h : s.Chain' (fun a b => luPair a b = false)) : spaceLowerUpper s = s := by
  induction s with
  | nil => rfl
  | cons a rest ih =>
    have hrest := (List.chain'_cons'.mp h).2
    have hpair := (List.chain'_cons'.mp h).1
    have hcond : (a.isLower && upperHead rest) = false := by
      cases rest with
      | nil => simp [upperHead]
      | cons b r =>
        have := hpair b (by simp)
        simpa [upperHead, luPair] using this
    simp only [spaceLowerUpper, hcond]
    simp [ih hrest]

theorem spaceAfterPunct_id {s : List Char}
    (h : s.Chain' (fun a b => puPair a b = false)) : spaceAfterPunct s = s := by
  induction s with
  | nil => rfl
  | cons a rest ih =>
    have hrest := (List.chain'_cons'.mp h).2
    have hpair := (List.chain'_cons'.mp h).1
    have hcond : (sentencePunct a && alphaHead rest) = false := by
      cases rest with
      | nil => simp [alphaHead]
      | cons b r =>
        have := hpair b (by simp)
        simpa [alphaHead, puPair] using this
    simp only [spaceAfterPunct, hcond]
    simp [ih hrest]

theorem collapseSpAux_id {s : List Char}
    (h : s.Chain' (fun a b => stPair a b = false)) : collapseSpAux false s = s := by
  induction s with
  | nil => rfl
  | cons a rest ih =>
    have hrest := (List.chain'_cons'.mp h).2
    have hpair := (List.chain'_cons'.mp h).1
    cases rest with
    | nil => simp [collapseSpAux]
    | cons b r =>
      have hcond : (isSpaceTab a && isSpaceTab b) = false := by
        simpa [stPair] using hpair b (by simp)
      rw [collapseSpAux]
      split
      · rename_i h'
        have h2 : (isSpaceTab a && isSpaceTab b) = true := by simpa using h'
        rw [hcond] at h2
        exact absurd h2 (by simp)
      · rw [ih hrest]

theorem head?_dropWhile {p : Char → Bool} {s : List Char} {y : Char}
    (hy : (s.dropWhile p).head? = some y) : p y = false := by
  induction s with
  | nil => simp at hy
  | cons a rest ih =>
    by_cases ha : p a
    · rw [List.dropWhile_cons_of_pos ha] at hy
      exact ih hy
    · rw [List.dropWhile_cons_of_neg ha] at hy
      have hay : a = y := by simpa using hy
      subst hay
      simpa using ha

theorem pyStrip_head_not_ws {s : List Char} {y : Char}
    (hy : (pyStrip s).head? = some y) : pyWs y = false := by
  unfold pyStrip at hy
  rw [List.head?_reverse] at hy
  -- the last element of the second dropWhile is the last element of the
  -- reversed first dropWhile, i.e. the head of the first dropWhile
  set u := s.dropWhile pyWs with hu
  set v := u.reverse.dropWhile pyWs with hv
  have hvne : v ≠ [] := by
    intro h
    rw [h] at hy
    simp at hy
  obtain ⟨pre, hpre⟩ : v <:+ u.reverse := hv ▸ List.dropWhile_suffix pyWs
  have : u.reverse.getLast? = some y := by
    rw [← hpre, List.getLast?_append_of_ne_nil pre hvne]
    exact hy
  rw [List.getLast?_reverse] at this
  exact head?_dropWhile this

theorem pyStrip_getLast_not_ws {s : List Char} {y : Char}
    (hy : (pyStrip s).getLast? = some y) : pyWs y = false := by
  unfold pyStrip at hy
  rw [List.getLast?_reverse] at hy
  exact head?_dropWhile hy

theorem pyStrip_id {s : List Char}
    (hhead : ∀ c, s.head? = some c → pyWs c = false)
    (hlast : ∀ c, s.getLast? = some c → pyWs c = false) : pyStrip s = s := by
  unfold pyStrip
  have h1 : s.dropWhile pyWs = s := by
    cases s with
    | nil => rfl
    | cons a rest =>
      rw [List.dropWhile_cons_of_neg]
      simp [hhead a rfl]
  rw [h1]
  have h2 : s.reverse.dropWhile pyWs = s.reverse := by
    cases hr : s.reverse with
    | nil => rfl
    | cons a rest =>
      have ha : s.getLast? = some a := by
        rw [← List.head?_reverse, hr]
        rfl
      rw [List.dropWhile_cons_of_neg]
      simp [hlast a ha]
  rw [h2, List.reverse_reverse]

theorem ascii_not_invisible {c : Char} (h : c.toNat ≤ 127) :
    invisibleChar c = false := by
  unfold invisibleChar
  have h1 : c ≠ Char.ofNat 0xad := fun e => by subst e; exact absurd h (by decide)
  have h2 : c ≠ Char.ofNat 0x200b := fun e => by subst e; exact absurd h (by decide)
  have h3 : c ≠ Char.ofNat 0x2060 := fun e => by subst e; exact absurd h (by decide)
  simp [h1, h2, h3]

/-- Counterexample to C10 as stated: `clean_text` is not idempotent on
every string.  On U+0065 U+00AD U+0301 (letter e, soft hyphen, combining
acute), the first pass removes the soft hyphen, leaving the combining
accent adjacent to the e; the second pass's NFC then composes the pair
into U+00E9. -/
theorem clean_text_not_idempotent :
    clean_text (clean_text ['e', Char.ofNat 0xad, Char.ofNat 0x301]) ≠
      clean_text ['e', Char.ofNat 0xad, Char.ofNat 0x301] := by decide

/-- C10 (amended): the cleaner is idempotent on every input made of ASCII
characters; idempotence can only fail through NFC recomposition on
non-ASCII input (see `clean_text_not_idempotent`). -/
theorem clean_text_idempotent_ascii {s : List Char} (hs : AllAscii s) :
    clean_text (clean_text s) = clean_text s := by
  by_cases h0 : s = []
  · subst h0; rfl
  have hcs : clean_text s =
      pyStrip (collapseSpaces (spaceAfterPunct (spaceLowerUpper
        (collapseNewlines (dehyphenate (rmInvisible (normNewlines s))))))) := by
    rw [clean_text, if_neg h0, nfc_ascii hs]
  by_cases hr0 : clean_text s = []
  · rw [hr0]; rfl
  -- characters of the output: ASCII, no CR, no LF
  have hmem : ∀ c ∈ clean_text s, c ∈ s ∨ c = ' ' ∨ c = '\n' := by
    intro c hc
    rw [hcs] at hc
    have h1 := mem_pyStrip hc
    rcases mem_collapseSpAux h1 with h2 | h2
    · rcases mem_spaceAfterPunct h2 with h3 | h3
      · rcases mem_spaceLowerUpper h3 with h4 | h4
        · rcases mem_collapseNlAux h4 with h5 | h5
          · have h6 := mem_dehyphAux h5
            have h7 := mem_rmInvisible h6
            rcases mem_normNewlines h7 with h8 | h8
            · exact Or.inl h8
            · exact Or.inr (Or.inr h8)
          · exact Or.inr (Or.inl h5)
        · exact Or.inr (Or.inl h4)
      · exact Or.inr (Or.inl h3)
    · exact Or.inr (Or.inl h2)
  have hascii : AllAscii (clean_text s) := by
    intro c hc
    rcases hmem c hc with h | h | h
    · exact hs c h
    · subst h; decide
    · subst h; decide
  have hnoNL : '\n' ∉ clean_text s := by
    intro hc
    rw [hcs] at hc
    have h1 := mem_pyStrip hc
    rcases mem_collapseSpAux h1 with h2 | h2
    · rcases mem_spaceAfterPunct h2 with h3 | h3
      · rcases mem_spaceLowerUpper h3 with h4 | h4
        · exact noNl_collapseNlAux h4
        · exact absurd h4 (by decide)
      · exact absurd h3 (by decide)
    · exact absurd h2 (by decide)
  have hnoCR : '\r' ∉ clean_text s := by
    intro hc
    rw [hcs] at hc
    have h1 := mem_pyStrip hc
    rcases mem_collapseSpAux h1 with h2 | h2
    · rcases mem_spaceAfterPunct h2 with h3 | h3
      · rcases mem_spaceLowerUpper h3 with h4 | h4
        · rcases mem_collapseNlAux h4 with h5 | h5
          · have h6 := mem_dehyphAux h5
            exact notCR_normNewlines (mem_rmInvisible h6)
          · exact absurd h5 (by decide)
        · exact absurd h4 (by decide)
      · exact absurd h3 (by decide)
    · exact absurd h2 (by decide)
  -- adjacent-pair properties of the output
  have hlu : (clean_text s).Chain' (fun a b => luPair a b = false) := by
    rw [hcs]
    refine List.Chain'.infix
      (chain'_collapseSpAux_preserve ?_ ?_ (chain'_lu_spaceAfterPunct
        (chain'_lu_spaceLowerUpper _)) false) (pyStrip_infix_self _)
    · intro x; simp [luPair, show (' ').isUpper = false by decide]
    · intro y; simp [luPair, show (' ').isLower = false by decide]
  have hpu : (clean_text s).Chain' (fun a b => puPair a b = false) := by
    rw [hcs]
    refine List.Chain'.infix
      (chain'_collapseSpAux_preserve ?_ ?_
        (chain'_pu_spaceAfterPunct _) false) (pyStrip_infix_self _)
    · intro x; simp [puPair, show (' ').isAlpha = false by decide]
    · intro y; simp [puPair, show sentencePunct ' ' = false by decide]
  have hst : (clean_text s).Chain' (fun a b => stPair a b = false) := by
    rw [hcs]
    exact List.Chain'.infix (chain'_st_collapseSpAux _ false) (pyStrip_infix_self _)
  -- leading/trailing whitespace of the output
  have hhead : ∀ c, (clean_text s).head? = some c → pyWs c = false := by
    intro c hc
    rw [hcs] at hc
    exact pyStrip_head_not_ws hc
  have hlast : ∀ c, (clean_text s).getLast? = some c → pyWs c = false := by
    intro c hc
    rw [hcs] at hc
    exact pyStrip_getLast_not_ws hc
  -- second pass: every stage is the identity
  rw [clean_text, if_neg hr0, nfc_ascii hascii, normNewlines_id hnoCR,
    rmInvisible_id (fun c hc => ascii_not_invisible (hascii c hc))]
  unfold dehyphenate collapseNewlines collapseSpaces
  rw [dehyphAux_id hnoNL, collapseNlAux_id hnoNL, spaceLowerUpper_id hlu,
    spaceAfterPunct_id hpu, collapseSpAux_id hst, pyStrip_id hhead hlast]

/-- Witness for the amended C10 at a concrete ASCII input. -/
theorem clean_text_idempotent_ascii_witness :
    AllAscii "end.Next  ok".data ∧
      clean_text (clean_text "end.Next  ok".data) = clean_text "end.Next  ok".data :=
  ⟨by decide, clean_text_idempotent_ascii (by decide)⟩

/-! ## The query compiler (`_ftsify`, src/spellcaster_portal.py lines 827-847)

```python
def _ftsify(q_raw: str) -> str:
    s = q_raw.strip()
    if not s:
        return s
    if re.search(r"\b(OR|AND|NOT)\b", s, flags=re.IGNORECASE):
        return s
    if '"' in s:
        return s
    toks = [t for t in re.split(r"\s+", s) if t]
    parts = []
    for t in toks:
        if len(t) <= 2:
            parts.append(t)
        else:
            parts.append(f"\x7bt\x7d*")
    return " AND ".join(parts) if parts else s
```
-/

/-- Is the head of the list a regex word character? -/
def wordCharHead : List Char → Bool
  | c :: _ => wordChar c
  | [] => false

/-- Does the keyword `w` (given in uppercase) match case-insensitively at
the start of `t`, followed by a word boundary (`\b` after the
alternative)? -/
def matchKw : List Char → List Char → Bool
  | [], t => !wordCharHead t
  | _ :: _, [] => false
  | a :: ws, c :: ts => (c.toUpper = a) && matchKw ws ts

/-- `re.search(r"\b(OR|AND|NOT)\b", s, flags=re.IGNORECASE)`: scan every
position; a match needs a word boundary before it, which the scanner
tracks as "was the previous character a word character".  `O`, `A`, `N`
are word characters, so the boundary before the keyword is equivalent to
the previous character (if any) not being a word character. -/
def hasBoolOpAux (prevWord : Bool) : List Char → Bool
  | [] => false
  | c :: rest =>
    (!prevWord &&
      (matchKw "OR".data (c :: rest) || matchKw "AND".data (c :: rest) ||
        matchKw "NOT".data (c :: rest)))
    || hasBoolOpAux (wordChar c) rest

/-- See `hasBoolOpAux`; at the start of the string there is a boundary. -/
def hasBoolOp (s : List Char) : Bool := hasBoolOpAux false s

/-- `[t for t in re.split(r"\s+", s) if t]`: the maximal runs of
non-whitespace characters, in order.  The accumulator holds the token
being collected. -/
def splitWsGo (cur : List Char) : List Char → List (List Char)
  | [] => if cur = [] then [] else [cur]
  | c :: rest =>
    if pyWs c then (if cur = [] then splitWsGo [] rest else cur :: splitWsGo [] rest)
    else splitWsGo (cur ++ [c]) rest

/-- See `splitWsGo`. -/
def splitWs (s : List Char) : List (List Char) := splitWsGo [] s

/-- The per-token wildcard rule: tokens of length at most two stay
literal, longer tokens get a trailing `*`. -/
def wildcardTok (t : List Char) : List Char :=
  if t.length ≤ 2 then t else t ++ ['*']

/-- `_ftsify` (src/spellcaster_portal.py lines 827-847).  The Python
local `s = q_raw.strip()` is written out as `pyStrip q_raw`. -/
def ftsify (q_raw : List Char) : List Char :=
  if pyStrip q_raw = [] then pyStrip q_raw
  else if hasBoolOp (pyStrip q_raw) then pyStrip q_raw
  else if '"' ∈ pyStrip q_raw then pyStrip q_raw
  else if ((splitWs (pyStrip q_raw)).map wildcardTok) = [] then pyStrip q_raw
  else List.intercalate " AND ".data ((splitWs (pyStrip q_raw)).map wildcardTok)

example : ftsify "silver mirror".data = "silver* AND mirror*".data := by decide
example : ftsify "a  b".data = "a AND b".data := by decide
example : ftsify "not here".data = "not here".data := by decide
example : ftsify "ward\"x".data = "ward\"x".data := by decide

theorem splitWsGo_ne_nil {cur : List Char} {s : List Char} (h : cur ≠ []) :
    splitWsGo cur s ≠ [] := by
  induction s generalizing cur with
  | nil => simp [splitWsGo, h]
  | cons c rest ih =>
    simp only [splitWsGo]
    split
    · simp [h]
    · exact ih (by simp)

theorem splitWs_ne_nil {s : List Char} (h0 : s ≠ [])
    (hh : ∀ c, s.head? = some c → pyWs c = false) : splitWs s ≠ [] := by
  cases s with
  | nil => exact absurd rfl h0
  | cons c rest =>
    have hc : pyWs c = false := hh c rfl
    simp only [splitWs, splitWsGo, hc]
    exact splitWsGo_ne_nil (by simp)

/-- Counterexample to C4 as stated: an input containing a whole-word
boolean operator is not always returned unchanged — the code returns the
stripped input, so leading/trailing whitespace is removed. -/
theorem ftsify_not_unchanged :
    ftsify " x AND y".data ≠ " x AND y".data := by decide

/-- C4 (amended): any input whose whitespace-stripped form contains a
whole-word AND/OR/NOT (case-insensitive) or a double quote compiles to
its whitespace-stripped form (not necessarily the input itself);
otherwise the stripped input is split on whitespace, tokens of length at
most 2 are kept literal, longer tokens get a trailing `*`, and the tokens
are joined with " AND "; in particular "hello world" compiles to
"hello* AND world*", "hello AND world" is unchanged, "hi" stays "hi" and
empty input compiles to empty output. -/
theorem ftsify_spec :
    (∀ q : List Char, (hasBoolOp (pyStrip q) = true ∨ '"' ∈ pyStrip q) →
        ftsify q = pyStrip q) ∧
    (∀ q : List Char, pyStrip q ≠ [] → hasBoolOp (pyStrip q) = false →
        '"' ∉ pyStrip q →
        ftsify q = List.intercalate " AND ".data
          ((splitWs (pyStrip q)).map wildcardTok)) ∧
    ftsify "hello world".data = "hello* AND world*".data ∧
    ftsify "hello AND world".data = "hello AND world".data ∧
    ftsify "hi".data = "hi".data ∧
    ftsify [] = [] := by
  refine ⟨?_, ?_, by decide, by decide, by decide, by decide⟩
  · intro q h
    unfold ftsify
    split
    · rfl
    · split
      · rfl
      · split
        · rfl
        · rename_i hop hq
          rcases h with h | h
          · exact absurd h (by simpa using hop)
          · exact absurd h hq
  · intro q h0 hop hq
    have hparts : (splitWs (pyStrip q)).map wildcardTok ≠ [] := by
      intro hp
      exact splitWs_ne_nil h0 (fun c hc => pyStrip_head_not_ws hc)
        (List.map_eq_nil_iff.mp hp)
    unfold ftsify
    rw [if_neg h0, if_neg (by simp [hop]), if_neg hq, if_neg hparts]

/-- Witness for the amended C4: its first branch applied at a concrete
input with a whole-word operator and leading whitespace. -/
theorem ftsify_spec_witness :
    (hasBoolOp (pyStrip " a AND b".data) = true ∨ '"' ∈ pyStrip " a AND b".data) ∧
      ftsify " a AND b".data = pyStrip " a AND b".data :=
  ⟨Or.inl (by decide), ftsify_spec.1 " a AND b".data (Or.inl (by decide))⟩

/-! ## Titles (`title_from_path`, src/spellcaster_portal.py lines 271-274)

```python
def title_from_path(path: Path) -> str:
    name = path.stem
    name = re.sub(r"[_-]+", " ", name).strip()
    return name.title() if name else str(path.name)
```

Paths are modelled as their path strings with `/` separators.
-/

/-- `path.name`: the part after the last `/`. -/
def lastComponent (p : List Char) : List Char :=
  (p.reverse.takeWhile (fun c => !(c = '/'))).reverse

/-- `path.stem`: the final component without its suffix.  `pathlib` takes
the suffix from the last dot when that dot is neither the first nor the
last character of the name. -/
def pathStem (p : List Char) : List Char :=
  let name := lastComponent p
  let rev := name.reverse
  let after := rev.takeWhile (fun c => !(c = '.'))
  let rest := rev.dropWhile (fun c => !(c = '.'))
  if rest.length ≤ 1 ∨ after = [] then name else (rest.drop 1).reverse

/-- The regex class `[_-]`. -/
def uhChar (c : Char) : Bool := c = '_' || c = '-'

/-- Is the head of the list an underscore or hyphen? -/
def uhHead : List Char → Bool
  | c :: _ => uhChar c
  | [] => false

/-- `re.sub(r"[_-]+", " ", name)`: a maximal run of underscores/hyphens
becomes one space (emitted at the end of the run). -/
def collapseUH : List Char → List Char
  | [] => []
  | c :: rest =>
    if uhChar c then (if uhHead rest then collapseUH rest else ' ' :: collapseUH rest)
    else c :: collapseUH rest

/-- Python `str.title()` on the ASCII range: the first letter of every
letter run is uppercased, the rest lowercased. -/
def pyTitleGo (prevAlpha : Bool) : List Char → List Char
  | [] => []
  | c :: rest =>
    if c.isAlpha then (if prevAlpha then c.toLower else c.toUpper) :: pyTitleGo true rest
    else c :: pyTitleGo false rest

/-- `title_from_path` (src/spellcaster_portal.py lines 271-274). -/
def title_from_path (p : List Char) : List Char :=
  let name := pyStrip (collapseUH (pathStem p))
  if name = [] then lastComponent p else pyTitleGo false name

example : title_from_path "library/moon_water-notes.txt".data = "Moon Water Notes".data := by
  decide

/-! ## The reindexer (`index_library`, src/spellcaster_portal.py lines 315-380)

The filesystem is modelled as a list of entries, one per path produced by
`sorted(LIB_DIR.rglob("*"))`:

* `relPath` — `str(path.relative_to(BASE_DIR))`; every library file is
  under `BASE_DIR`, so the `ValueError` fallback to `str(path)` never
  fires and the relative path is carried directly.  Distinct filesystem
  paths have distinct `relPath` values, which theorems state as a
  `Nodup` hypothesis.
* `isFile` — `path.is_file()`.
* `extLower` — `path.suffix.lower()`.
* `readable` — whether reading the file succeeds.  `read_text_file`
  decodes with `errors="ignore"`, so decoding itself never raises; only
  an I/O failure does, in which case the `except` branch re-reads the
  same file and raises the same error — hence the `Except` result.
* `raw` — the text the reader yields when the file is readable (for a
  PDF: what the PDF extractor produces, `""` when parsing fails, which
  `read_pdf_file` swallows with its own `try`/`except`).

`datetime.utcnow()` is supplied by the caller as an abstract timestamp
`now : Nat` (no claim depends on timestamp values).  `init_db`,
`recompute_facet_counts` and the `print` calls touch neither the
`documents` table nor the summary counters and are omitted.  The SQL
`DELETE ... WHERE id=?` on the stale rows is modelled as deletion by
path: `path` is UNIQUE and `existing` maps each stale path to its row id.
-/

/-- A filesystem entry under the watched root. -/
structure FsEntry where
  relPath : List Char
  isFile : Bool
  extLower : List Char
  readable : Bool
  raw : List Char
deriving DecidableEq

/-- A row of the `documents` table. -/
structure Doc where
  title : List Char
  path : List Char
  content : List Char
  created_at : Nat
  updated_at : Nat
deriving DecidableEq

/-- The summary returned by `index_library`, together with the resulting
`documents` table. -/
structure SyncSummary where
  inserted : Nat
  updated : Nat
  removed : Nat
  total_docs : Nat
  files_scanned : Nat
  db : List Doc
deriving DecidableEq

/-- The supported-extension filter of the scan loop (line 330):
`{".txt", ".md", ".pdf"} if HAS_PDF else {".txt", ".md"}`. -/
def supportedExts (hasPdf : Bool) : List (List Char) :=
  if hasPdf then [".txt".data, ".md".data, ".pdf".data]
  else [".txt".data, ".md".data]

/-- `read_text_file` (lines 219-223): with `errors="ignore"` decoding
never fails, so the only failure is an I/O error, which the `latin-1`
retry hits again and re-raises. -/
def read_text_file (e : FsEntry) : Except Unit (List Char) :=
  if e.readable then .ok e.raw else .error ()

/-- `read_pdf_file` (lines 225-246): every failure path inside returns
`""`. -/
def read_pdf_file (e : FsEntry) : List Char :=
  if e.readable then e.raw else []

/-- `extract_text` (lines 261-269). -/
def extract_text (useCleaner : Bool) (e : FsEntry) : Except Unit (List Char) :=
  if e.extLower = ".txt".data ∨ e.extLower = ".md".data then
    (read_text_file e).map (fun raw => if useCleaner then clean_text raw else raw)
  else if e.extLower = ".pdf".data then
    .ok (if useCleaner then clean_text (read_pdf_file e) else read_pdf_file e)
  else .ok (if useCleaner then clean_text [] else [])

/-- The state threaded through the scan loop of `index_library`: the
`documents` table, the not-yet-matched `existing` paths, and the
counters. -/
structure SyncAcc where
  db : List Doc
  existing : List (List Char)
  inserted : Nat
  updated : Nat
  fileCount : Nat
deriving DecidableEq

/-- The `UPDATE documents SET title=?, content=?, updated_at=? WHERE
path=?` statement (lines 347-350). -/
def dbUpdate (db : List Doc) (p ti content : List Char) (now : Nat) : List Doc :=
  db.map fun d =>
    if d.path = p then { d with title := ti, content := content, updated_at := now } else d

/-- One iteration of the scan loop of `index_library` (lines 327-359). -/
def syncStep (hasPdf useCleaner : Bool) (now : Nat) (acc : SyncAcc) (e : FsEntry) :
    Except Unit SyncAcc :=
  if e.isFile = true then
    if e.extLower ∈ supportedExts hasPdf then
      match extract_text useCleaner e with
      | .error err => .error err
      | .ok text =>
        if pyStrip text = [] then .ok { acc with fileCount := acc.fileCount + 1 }
        else if e.relPath ∈ acc.existing then
          match acc.db.find? (fun d => decide (d.path = e.relPath)) with
          | some row =>
            if row.content ≠ text then
              .ok { acc with
                fileCount := acc.fileCount + 1,
                db := dbUpdate acc.db e.relPath (title_from_path e.relPath) text now,
                updated := acc.updated + 1,
                existing := acc.existing.erase e.relPath }
            else
              .ok { acc with
                fileCount := acc.fileCount + 1,
                existing := acc.existing.erase e.relPath }
          | none =>
            .ok { acc with
              fileCount := acc.fileCount + 1,
              existing := acc.existing.erase e.relPath }
        else
          .ok { acc with
            fileCount := acc.fileCount + 1,
            db := acc.db ++
              [{ title := title_from_path e.relPath, path := e.relPath,
                 content := text, created_at := now, updated_at := now }],
            inserted := acc.inserted + 1 }
    else .ok acc
  else .ok acc

/-- `index_library` (lines 315-380): scan, then delete the stale rows,
then return the summary. -/
def index_library (hasPdf useCleaner : Bool) (now : Nat) (fs : List FsEntry)
    (db0 : List Doc) : Except Unit SyncSummary :=
  match fs.foldlM (syncStep hasPdf useCleaner now) ⟨db0, db0.map Doc.path, 0, 0, 0⟩ with
  | .error err => .error err
  | .ok acc =>
    let finalDb := acc.db.filter (fun d => decide (d.path ∉ acc.existing))
    .ok { inserted := acc.inserted,
          updated := acc.updated,
          removed := acc.existing.length,
          total_docs := finalDb.length,
          files_scanned := acc.fileCount,
          db := finalDb }

/-- A "good" file: one the scan indexes — a real file with a supported
extension whose extracted (and optionally cleaned) text is non-empty
after stripping. -/
def GoodFile (hasPdf useCleaner : Bool) (e : FsEntry) : Prop :=
  e.isFile = true ∧ e.extLower ∈ supportedExts hasPdf ∧
    ∃ t, extract_text useCleaner e = .ok t ∧ pyStrip t ≠ []

/-- The text a good file extracts to. -/
def extractedText (useCleaner : Bool) (e : FsEntry) : List Char :=
  match extract_text useCleaner e with
  | .ok t => t
  | .error _ => []

/-- Some already-scanned entry is good and has this relative path. -/
def DoneGood (hasPdf useCleaner : Bool) (done : List FsEntry) (p : List Char) : Prop :=
  ∃ e ∈ done, GoodFile hasPdf useCleaner e ∧ e.relPath = p

theorem extractedText_eq {useCleaner : Bool} {e : FsEntry} {t : List Char}
    (h : extract_text useCleaner e = .ok t) : extractedText useCleaner e = t := by
  unfold extractedText
  rw [h]

/-! Sanity checks of the sync model. -/

example :
    index_library true true 0
      [⟨"library/a.txt".data, true, ".txt".data, true, "silver  mirror".data⟩] [] =
    .ok ⟨1, 0, 0, 1, 1,
      [⟨"A".data, "library/a.txt".data, "silver mirror".data, 0, 0⟩]⟩ := by rfl

example :
    index_library true true 7
      [⟨"library/a.txt".data, true, ".txt".data, true, "changed".data⟩]
      [⟨"A".data, "library/a.txt".data, "old".data, 0, 0⟩] =
    .ok ⟨0, 1, 0, 1, 1,
      [⟨"A".data, "library/a.txt".data, "changed".data, 0, 7⟩]⟩ := by rfl

example :
    index_library true true 7 []
      [⟨"A".data, "library/gone.txt".data, "old".data, 0, 0⟩] =
    .ok ⟨0, 0, 1, 0, 0, []⟩ := by rfl

/-! ### Branch characterizations of `syncStep` -/

theorem syncStep_notFile {hp uc : Bool} {now : Nat} {acc : SyncAcc} {e : FsEntry}
    (h : e.isFile = false) : syncStep hp uc now acc e = .ok acc := by
  unfold syncStep
  simp [h]

theorem syncStep_extNot {hp uc : Bool} {now : Nat} {acc : SyncAcc} {e : FsEntry}
    (h1 : e.isFile = true) (h2 : e.extLower ∉ supportedExts hp) :
    syncStep hp uc now acc e = .ok acc := by
  unfold syncStep
  simp [h1, h2]

theorem syncStep_err {hp uc : Bool} {now : Nat} {acc : SyncAcc} {e : FsEntry}
    (h1 : e.isFile = true) (h2 : e.extLower ∈ supportedExts hp)
    (h3 : extract_text uc e = .error ()) :
    syncStep hp uc now acc e = .error () := by
  unfold syncStep
  simp [h1, h2, h3]

theorem syncStep_empty {hp uc : Bool} {now : Nat} {acc : SyncAcc} {e : FsEntry}
    {t : List Char}
    (h1 : e.isFile = true) (h2 : e.extLower ∈ supportedExts hp)
    (h3 : extract_text uc e = .ok t) (h4 : pyStrip t = []) :
    syncStep hp uc now acc e = .ok { acc with fileCount := acc.fileCount + 1 } := by
  unfold syncStep
  simp [h1, h2, h3, h4]

theorem syncStep_update {hp uc : Bool} {now : Nat} {acc : SyncAcc} {e : FsEntry}
    {t : List Char} {row : Doc}
    (h1 : e.isFile = true) (h2 : e.extLower ∈ supportedExts hp)
    (h3 : extract_text uc e = .ok t) (h4 : pyStrip t ≠ [])
    (h5 : e.relPath ∈ acc.existing)
    (h6 : acc.db.find? (fun d => decide (d.path = e.relPath)) = some row)
    (h7 : row.content ≠ t) :
    syncStep hp uc now acc e = .ok
      ⟨dbUpdate acc.db e.relPath (title_from_path e.relPath) t now,
       acc.existing.erase e.relPath, acc.inserted, acc.updated + 1,
       acc.fileCount + 1⟩ := by
  unfold syncStep
  simp [h1, h2, h3, h4, h5, h6, h7]

theorem syncStep_nochange {hp uc : Bool} {now : Nat} {acc : SyncAcc} {e : FsEntry}
    {t : List Char} {row : Doc}
    (h1 : e.isFile = true) (h2 : e.extLower ∈ supportedExts hp)
    (h3 : extract_text uc e = .ok t) (h4 : pyStrip t ≠ [])
    (h5 : e.relPath ∈ acc.existing)
    (h6 : acc.db.find? (fun d => decide (d.path = e.relPath)) = some row)
    (h7 : row.content = t) :
    syncStep hp uc now acc e = .ok
      ⟨acc.db, acc.existing.erase e.relPath, acc.inserted, acc.updated,
       acc.fileCount + 1⟩ := by
  unfold syncStep
  simp [h1, h2, h3, h4, h5, h6, h7]

theorem syncStep_popNone {hp uc : Bool} {now : Nat} {acc : SyncAcc} {e : FsEntry}
    {t : List Char}
    (h1 : e.isFile = true) (h2 : e.extLower ∈ supportedExts hp)
    (h3 : extract_text uc e = .ok t) (h4 : pyStrip t ≠ [])
    (h5 : e.relPath ∈ acc.existing)
    (h6 : acc.db.find? (fun d => decide (d.path = e.relPath)) = none) :
    syncStep hp uc now acc e = .ok
      ⟨acc.db, acc.existing.erase e.relPath, acc.inserted, acc.updated,
       acc.fileCount + 1⟩ := by
  unfold syncStep
  simp [h1, h2, h3, h4, h5, h6]

theorem syncStep_insert {hp uc : Bool} {now : Nat} {acc : SyncAcc} {e : FsEntry}
    {t : List Char}
    (h1 : e.isFile = true) (h2 : e.extLower ∈ supportedExts hp)
    (h3 : extract_text uc e = .ok t) (h4 : pyStrip t ≠ [])
    (h5 : e.relPath ∉ acc.existing) :
    syncStep hp uc now acc e = .ok
      ⟨acc.db ++ [⟨title_from_path e.relPath, e.relPath, t, now, now⟩],
       acc.existing, acc.inserted + 1, acc.updated, acc.fileCount + 1⟩ := by
  unfold syncStep
  simp [h1, h2, h3, h4, h5]

theorem foldlM_cons_ok {f : SyncAcc → FsEntry → Except Unit SyncAcc}
    {acc accF : SyncAcc} {e : FsEntry} {rest : List FsEntry}
    (h : List.foldlM f acc (e :: rest) = .ok accF) :
    ∃ acc', f acc e = .ok acc' ∧ List.foldlM f acc' rest = .ok accF := by
  rw [List.foldlM_cons] at h
  cases hstep : f acc e with
  | error err =>
    rw [hstep] at h
    have h2 : (Except.error err : Except Unit SyncAcc) = .ok accF := h
    cases h2
  | ok acc' =>
    rw [hstep] at h
    have h2 : List.foldlM f acc' rest = .ok accF := h
    exact ⟨acc', rfl, h2⟩

/-! ### Helper lemmas about the table and the working set -/

theorem dbUpdate_map_path (db : List Doc) (p ti c : List Char) (n : Nat) :
    (dbUpdate db p ti c n).map Doc.path = db.map Doc.path := by
  unfold dbUpdate
  rw [List.map_map]
  refine List.map_congr_left (fun d _ => ?_)
  simp only [Function.comp]
  split <;> simp_all

theorem mem_dbUpdate_of_ne {db : List Doc} {d : Doc} {p ti c : List Char} {n : Nat}
    (hd : d ∈ db) (hne : d.path ≠ p) : d ∈ dbUpdate db p ti c n := by
  unfold dbUpdate
  have hfix : (fun x : Doc =>
      if x.path = p then { x with title := ti, content := c, updated_at := n } else x) d
      = d := by
    simp [hne]
  exact hfix ▸ List.mem_map_of_mem _ hd

theorem updated_mem_dbUpdate {db : List Doc} {row : Doc} {p ti c : List Char} {n : Nat}
    (hrow : row ∈ db) (hpath : row.path = p) :
    { row with title := ti, content := c, updated_at := n } ∈ dbUpdate db p ti c n := by
  unfold dbUpdate
  have hfix : (fun x : Doc =>
      if x.path = p then { x with title := ti, content := c, updated_at := n } else x) row
      = { row with title := ti, content := c, updated_at := n } := by
    simp [hpath]
  exact hfix ▸ List.mem_map_of_mem _ hrow

theorem find?_eq_some_of_mem_nodup {db : List Doc} {p : List Char} {d : Doc}
    (hn : (db.map Doc.path).Nodup) (hd : d ∈ db) (hdp : d.path = p) :
    db.find? (fun x => decide (x.path = p)) = some d := by
  induction db with
  | nil => simp at hd
  | cons x rest ih =>
    rcases List.mem_cons.mp hd with rfl | hmem
    · rw [List.find?_cons_of_pos _ (by simp [hdp])]
    · have hnotin : x.path ∉ rest.map Doc.path := (List.nodup_cons.mp (by simpa using hn)).1
      have hx : ¬ (x.path = p) := by
        intro hxp
        exact hnotin (hxp ▸ hdp ▸ List.mem_map_of_mem Doc.path hmem)
      rw [List.find?_cons_of_neg _ (by simp [hx])]
      exact ih (List.nodup_cons.mp (by simpa using hn)).2 hmem

theorem DoneGood_append_single {hp uc : Bool} {done : List FsEntry} {e : FsEntry}
    {p : List Char} :
    DoneGood hp uc (done ++ [e]) p ↔
      DoneGood hp uc done p ∨ (GoodFile hp uc e ∧ e.relPath = p) := by
  simp only [DoneGood, List.mem_append, List.mem_singleton]
  constructor
  · rintro ⟨x, hx | rfl, hg, hrel⟩
    · exact Or.inl ⟨x, hx, hg, hrel⟩
    · exact Or.inr ⟨hg, hrel⟩
  · rintro (⟨x, hx, hg, hrel⟩ | ⟨hg, hrel⟩)
    · exact ⟨x, Or.inl hx, hg, hrel⟩
    · exact ⟨e, Or.inr rfl, hg, hrel⟩

theorem DoneGood_append_notGood {hp uc : Bool} {done : List FsEntry} {e : FsEntry}
    {p : List Char} (h : ¬ GoodFile hp uc e) :
    DoneGood hp uc (done ++ [e]) p ↔ DoneGood hp uc done p := by
  rw [DoneGood_append_single]
  simp [h]

/-- The invariant of the scan loop.  Starting from a state whose table
paths are characterized by `P0` (the paths present before the scan)
together with the good files already scanned (`done`), and whose
`existing` working set holds exactly the `P0` paths not yet re-observed,
a successful fold over `pending` preserves the characterization with
`done ++ pending`, keeps the path lists duplicate-free, and stores for
every good file scanned so far exactly its extracted text. -/
theorem syncFold_invariant (hp uc : Bool) (now : Nat) (P0 : List Char → Prop) :
    ∀ (pending done : List FsEntry) (acc accF : SyncAcc),
    List.foldlM (syncStep hp uc now) acc pending = .ok accF →
    (∀ p, p ∈ acc.db.map Doc.path ↔ (P0 p ∨ DoneGood hp uc done p)) →
    (∀ p, p ∈ acc.existing ↔ (P0 p ∧ ¬ DoneGood hp uc done p)) →
    (acc.db.map Doc.path).Nodup →
    acc.existing.Nodup →
    (pending.map FsEntry.relPath).Nodup →
    (∀ e ∈ pending, ¬ DoneGood hp uc done e.relPath) →
    (∀ e ∈ done, GoodFile hp uc e →
      ∃ d ∈ acc.db, d.path = e.relPath ∧ d.content = extractedText uc e) →
    ((∀ p, p ∈ accF.db.map Doc.path ↔ (P0 p ∨ DoneGood hp uc (done ++ pending) p)) ∧
     (∀ p, p ∈ accF.existing ↔ (P0 p ∧ ¬ DoneGood hp uc (done ++ pending) p)) ∧
     (accF.db.map Doc.path).Nodup ∧
     accF.existing.Nodup ∧
     (∀ e ∈ done ++ pending, GoodFile hp uc e →
       ∃ d ∈ accF.db, d.path = e.relPath ∧ d.content = extractedText uc e)) := by
  intro pending
  induction pending with
  | nil =>
    intro done acc accF hfold hdb hex hnodb hnoex _ _ hcontent
    have h2 : (Except.ok acc : Except Unit SyncAcc) = .ok accF := hfold
    injection h2 with h
    subst h
    simp only [List.append_nil]
    exact ⟨hdb, hex, hnodb, hnoex, hcontent⟩
  | cons e rest ih =>
    intro done acc accF hfold hdb hex hnodb hnoex hpnodup hpfresh hcontent
    obtain ⟨acc', hstep, hrest⟩ := foldlM_cons_ok hfold
    rw [List.map_cons] at hpnodup
    obtain ⟨hrelnotin, hrestnodup⟩ := List.nodup_cons.mp hpnodup
    have happ : (done ++ [e]) ++ rest = done ++ e :: rest := by simp
    -- the three "skip" branches share everything below except the step lemma
    by_cases hfile : e.isFile = true
    case neg =>
      have hfile' : e.isFile = false := by simpa using hfile
      have hng : ¬ GoodFile hp uc e := fun hg => by rw [hg.1] at hfile'; cases hfile'
      rw [syncStep_notFile hfile'] at hstep
      injection hstep with h
      subst h
      have IH := ih (done ++ [e]) acc accF hrest
        (fun p => by rw [DoneGood_append_notGood hng]; exact hdb p)
        (fun p => by rw [DoneGood_append_notGood hng]; exact hex p)
        hnodb hnoex hrestnodup
        (fun e' he' => by
          rw [DoneGood_append_notGood hng]
          exact hpfresh e' (List.mem_cons_of_mem _ he'))
        (fun e' he' hg => by
          rcases List.mem_append.mp he' with h' | h'
          · exact hcontent e' h' hg
          · rw [List.mem_singleton.mp h'] at hg
            exact absurd hg hng)
      rwa [happ] at IH
    case pos =>
      by_cases hext : e.extLower ∈ supportedExts hp
      case neg =>
        have hng : ¬ GoodFile hp uc e := fun hg => hext hg.2.1
        rw [syncStep_extNot hfile hext] at hstep
        injection hstep with h
        subst h
        have IH := ih (done ++ [e]) acc accF hrest
          (fun p => by rw [DoneGood_append_notGood hng]; exact hdb p)
          (fun p => by rw [DoneGood_append_notGood hng]; exact hex p)
          hnodb hnoex hrestnodup
          (fun e' he' => by
            rw [DoneGood_append_notGood hng]
            exact hpfresh e' (List.mem_cons_of_mem _ he'))
          (fun e' he' hg => by
            rcases List.mem_append.mp he' with h' | h'
            · exact hcontent e' h' hg
            · rw [List.mem_singleton.mp h'] at hg
              exact absurd hg hng)
        rwa [happ] at IH
      case pos =>
        cases hextract : extract_text uc e with
        | error err =>
          cases err
          rw [syncStep_err hfile hext hextract] at hstep
          cases hstep
        | ok t =>
          by_cases hempty : pyStrip t = []
          · have hng : ¬ GoodFile hp uc e := by
              rintro ⟨-, -, t', ht', hne⟩
              rw [hextract] at ht'
              injection ht' with h
              exact hne (h ▸ hempty)
            rw [syncStep_empty hfile hext hextract hempty] at hstep
            injection hstep with h
            subst h
            have IH := ih (done ++ [e])
              { acc with fileCount := acc.fileCount + 1 } accF hrest
              (fun p => by rw [DoneGood_append_notGood hng]; exact hdb p)
              (fun p => by rw [DoneGood_append_notGood hng]; exact hex p)
              hnodb hnoex hrestnodup
              (fun e' he' => by
                rw [DoneGood_append_notGood hng]
                exact hpfresh e' (List.mem_cons_of_mem _ he'))
              (fun e' he' hg => by
                rcases List.mem_append.mp he' with h' | h'
                · exact hcontent e' h' hg
                · rw [List.mem_singleton.mp h'] at hg
                  exact absurd hg hng)
            rwa [happ] at IH
          · have hgood : GoodFile hp uc e := ⟨hfile, hext, t, hextract, hempty⟩
            have hext_t : extractedText uc e = t := extractedText_eq hextract
            have hfreshrel : ¬ DoneGood hp uc done e.relPath :=
              hpfresh e (List.mem_cons_self _ _)
            have hfresh' : ∀ e' ∈ rest, ¬ DoneGood hp uc (done ++ [e]) e'.relPath := by
              intro e' he'
              rw [DoneGood_append_single]
              rintro (h' | ⟨-, hrel⟩)
              · exact hpfresh e' (List.mem_cons_of_mem _ he') h'
              · exact hrelnotin (hrel ▸ List.mem_map_of_mem FsEntry.relPath he')
            by_cases hmem : e.relPath ∈ acc.existing
            · have hP0 : P0 e.relPath ∧ ¬ DoneGood hp uc done e.relPath := (hex _).mp hmem
              have hdbmem : e.relPath ∈ acc.db.map Doc.path := (hdb _).mpr (Or.inl hP0.1)
              obtain ⟨d0, hd0mem, hd0path⟩ := List.mem_map.mp hdbmem
              have hfind : acc.db.find? (fun x => decide (x.path = e.relPath)) = some d0 :=
                find?_eq_some_of_mem_nodup hnodb hd0mem hd0path
              have hdb_new : ∀ p, p ∈ acc.db.map Doc.path ↔
                  (P0 p ∨ DoneGood hp uc (done ++ [e]) p) := by
                intro p
                rw [DoneGood_append_single]
                constructor
                · intro hmem2
                  rcases (hdb p).mp hmem2 with h' | h'
                  · exact Or.inl h'
                  · exact Or.inr (Or.inl h')
                · rintro (h' | h' | ⟨-, hrelp⟩)
                  · exact (hdb p).mpr (Or.inl h')
                  · exact (hdb p).mpr (Or.inr h')
                  · exact hrelp ▸ hdbmem
              have hex_new : ∀ p, p ∈ acc.existing.erase e.relPath ↔
                  (P0 p ∧ ¬ DoneGood hp uc (done ++ [e]) p) := by
                intro p
                rw [List.Nodup.mem_erase_iff hnoex, DoneGood_append_single]
                constructor
                · rintro ⟨hne, hpe⟩
                  obtain ⟨hP, hnd⟩ := (hex p).mp hpe
                  refine ⟨hP, ?_⟩
                  rintro (h' | ⟨-, hrelp⟩)
                  · exact hnd h'
                  · exact hne hrelp.symm
                · rintro ⟨hP, hnd⟩
                  refine ⟨fun hpe => hnd (Or.inr ⟨hgood, hpe.symm⟩), ?_⟩
                  exact (hex p).mpr ⟨hP, fun h' => hnd (Or.inl h')⟩
              have hcontent_old : ∀ e' ∈ done, GoodFile hp uc e' →
                  e'.relPath ≠ e.relPath := by
                intro e' he' hg' heq
                exact hfreshrel ⟨e', he', hg', heq⟩
              by_cases hchg : d0.content ≠ t
              · rw [syncStep_update hfile hext hextract hempty hmem hfind hchg] at hstep
                injection hstep with h
                subst h
                have IH := ih (done ++ [e]) _ accF hrest
                  (fun p => by
                    show p ∈ (dbUpdate acc.db e.relPath
                      (title_from_path e.relPath) t now).map Doc.path ↔ _
                    rw [dbUpdate_map_path]
                    exact hdb_new p)
                  hex_new
                  (by show ((dbUpdate acc.db e.relPath
                        (title_from_path e.relPath) t now).map Doc.path).Nodup
                      rw [dbUpdate_map_path]; exact hnodb)
                  (hnoex.erase _) hrestnodup hfresh'
                  (fun e' he' hg => by
                    rcases List.mem_append.mp he' with h' | h'
                    · obtain ⟨d, hdmem, hdpath, hdcontent⟩ := hcontent e' h' hg
                      refine ⟨d, mem_dbUpdate_of_ne hdmem ?_, hdpath, hdcontent⟩
                      rw [hdpath]
                      exact hcontent_old e' h' hg
                    · rw [List.mem_singleton.mp h']
                      refine ⟨{ d0 with
                          title := title_from_path e.relPath,
                          content := t,
                          updated_at := now },
                        updated_mem_dbUpdate hd0mem hd0path, hd0path, hext_t.symm⟩)
                rwa [happ] at IH
              · have hceq : d0.content = t := not_not.mp hchg
                rw [syncStep_nochange hfile hext hextract hempty hmem hfind hceq] at hstep
                injection hstep with h
                subst h
                have IH := ih (done ++ [e]) _ accF hrest hdb_new hex_new hnodb
                  (hnoex.erase _) hrestnodup hfresh'
                  (fun e' he' hg => by
                    rcases List.mem_append.mp he' with h' | h'
                    · exact hcontent e' h' hg
                    · rw [List.mem_singleton.mp h']
                      exact ⟨d0, hd0mem, hd0path, hext_t ▸ hceq⟩)
                rwa [happ] at IH
            · have hnotP0 : ¬ P0 e.relPath := by
                intro hP
                exact hmem ((hex _).mpr ⟨hP, hfreshrel⟩)
              have hnotdb : e.relPath ∉ acc.db.map Doc.path := by
                intro hmem2
                rcases (hdb _).mp hmem2 with h' | h'
                · exact hnotP0 h'
                · exact hfreshrel h'
              rw [syncStep_insert hfile hext hextract hempty hmem] at hstep
              injection hstep with h
              subst h
              have IH := ih (done ++ [e]) _ accF hrest
                (fun p => by
                  show p ∈ (acc.db ++
                    [(⟨title_from_path e.relPath, e.relPath, t, now, now⟩ : Doc)]).map Doc.path ↔ _
                  rw [List.map_append, DoneGood_append_single]
                  simp only [List.map_cons, List.map_nil, List.mem_append,
                    List.mem_singleton]
                  constructor
                  · rintro (h' | h')
                    · rcases (hdb p).mp h' with h'' | h''
                      · exact Or.inl h''
                      · exact Or.inr (Or.inl h'')
                    · exact Or.inr (Or.inr ⟨hgood, h'.symm⟩)
                  · rintro (h' | h' | ⟨-, hrelp⟩)
                    · exact Or.inl ((hdb p).mpr (Or.inl h'))
                    · exact Or.inl ((hdb p).mpr (Or.inr h'))
                    · exact Or.inr hrelp.symm)
                (fun p => by
                  show p ∈ acc.existing ↔ _
                  rw [DoneGood_append_single]
                  constructor
                  · intro hpe
                    obtain ⟨hP, hnd⟩ := (hex p).mp hpe
                    refine ⟨hP, ?_⟩
                    rintro (h' | ⟨-, hrelp⟩)
                    · exact hnd h'
                    · exact hnotP0 (hrelp ▸ hP)
                  · rintro ⟨hP, hnd⟩
                    exact (hex p).mpr ⟨hP, fun h' => hnd (Or.inl h')⟩)
                (by
                  show ((acc.db ++
                    [(⟨title_from_path e.relPath, e.relPath, t, now, now⟩ : Doc)]).map Doc.path).Nodup
                  rw [List.map_append]
                  refine List.nodup_append.mpr ⟨hnodb, List.nodup_singleton _, ?_⟩
                  intro a ha hb
                  have hab : a = e.relPath := by simpa using hb
                  exact hnotdb (hab ▸ ha))
                hnoex hrestnodup hfresh'
                (fun e' he' hg => by
                  rcases List.mem_append.mp he' with h' | h'
                  · obtain ⟨d, hdmem, hdpath, hdcontent⟩ := hcontent e' h' hg
                    exact ⟨d, List.mem_append_left _ hdmem, hdpath, hdcontent⟩
                  · rw [List.mem_singleton.mp h']
                    exact ⟨⟨title_from_path e.relPath, e.relPath, t, now, now⟩,
                      List.mem_append_right _ (List.mem_singleton_self _),
                      rfl, hext_t.symm⟩)
              rwa [happ] at IH

/-- Destructuring a successful `index_library` run into its final fold
state. -/
theorem index_library_ok_destruct {hp uc : Bool} {now : Nat} {fs : List FsEntry}
    {db0 : List Doc} {res : SyncSummary}
    (h : index_library hp uc now fs db0 = .ok res) :
    ∃ acc, List.foldlM (syncStep hp uc now) ⟨db0, db0.map Doc.path, 0, 0, 0⟩ fs = .ok acc ∧
      res.db = acc.db.filter (fun d => decide (d.path ∉ acc.existing)) ∧
      res.removed = acc.existing.length ∧
      res.inserted = acc.inserted ∧ res.updated = acc.updated := by
  unfold index_library at h
  cases hf : List.foldlM (syncStep hp uc now) ⟨db0, db0.map Doc.path, 0, 0, 0⟩ fs with
  | error err =>
    rw [hf] at h
    cases h
  | ok acc =>
    rw [hf] at h
    injection h with h2
    subst h2
    exact ⟨acc, rfl, rfl, rfl, rfl, rfl⟩

/-- Full characterization of a completed sync: the resulting table holds
exactly the good files' paths, those paths are duplicate-free, each good
file's stored content equals its extracted text, and every pre-existing
path that no good file re-observes contributes to the `removed` count. -/
theorem index_library_char {hp uc : Bool} {now : Nat} {fs : List FsEntry}
    {db0 : List Doc} {res : SyncSummary}
    (hfs : (fs.map FsEntry.relPath).Nodup) (hdb0 : (db0.map Doc.path).Nodup)
    (h : index_library hp uc now fs db0 = .ok res) :
    (∀ p, p ∈ res.db.map Doc.path ↔ DoneGood hp uc fs p) ∧
    (res.db.map Doc.path).Nodup ∧
    (∀ e ∈ fs, GoodFile hp uc e →
      ∃ d ∈ res.db, d.path = e.relPath ∧ d.content = extractedText uc e) ∧
    (∀ p, p ∈ db0.map Doc.path → ¬ DoneGood hp uc fs p → 1 ≤ res.removed) := by
  obtain ⟨acc, hfold, hresdb, hresrem, -, -⟩ := index_library_ok_destruct h
  have master := syncFold_invariant hp uc now (fun p => p ∈ db0.map Doc.path)
    fs [] ⟨db0, db0.map Doc.path, 0, 0, 0⟩ acc hfold
    (fun p => by simp [DoneGood])
    (fun p => by simp [DoneGood])
    hdb0 hdb0 hfs
    (fun e _ => by simp [DoneGood])
    (fun e he => by simp at he)
  rw [List.nil_append] at master
  obtain ⟨hdbF, hexF, hnodF, -, hcontF⟩ := master
  have hmemres : ∀ p, p ∈ res.db.map Doc.path ↔
      (p ∈ acc.db.map Doc.path ∧ p ∉ acc.existing) := by
    intro p
    rw [hresdb]
    constructor
    · intro hp2
      obtain ⟨d, hd, hdp⟩ := List.mem_map.mp hp2
      obtain ⟨hd1, hd2⟩ := List.mem_filter.mp hd
      refine ⟨hdp ▸ List.mem_map_of_mem Doc.path hd1, ?_⟩
      rw [← hdp]
      simpa using hd2
    · rintro ⟨hp1, hp2⟩
      obtain ⟨d, hd, hdp⟩ := List.mem_map.mp hp1
      refine hdp ▸ List.mem_map_of_mem Doc.path (List.mem_filter.mpr ⟨hd, ?_⟩)
      simp [hdp ▸ hp2]
  refine ⟨?_, ?_, ?_, ?_⟩
  · intro p
    rw [hmemres p]
    constructor
    · rintro ⟨h1, h2⟩
      rcases (hdbF p).mp h1 with h' | h'
      · by_cases hdg : DoneGood hp uc fs p
        · exact hdg
        · exact absurd ((hexF p).mpr ⟨h', hdg⟩) h2
      · exact h'
    · intro hdg
      refine ⟨(hdbF p).mpr (Or.inr hdg), fun hmem => ?_⟩
      exact ((hexF p).mp hmem).2 hdg
  · rw [hresdb]
    exact hnodF.sublist ((List.filter_sublist acc.db).map Doc.path)
  · intro e he hg
    obtain ⟨d, hd, hdp, hdc⟩ := hcontF e he hg
    refine ⟨d, ?_, hdp, hdc⟩
    rw [hresdb]
    refine List.mem_filter.mpr ⟨hd, ?_⟩
    have : d.path ∉ acc.existing := fun hmem =>
      ((hexF d.path).mp hmem).2 ⟨e, he, hg, hdp.symm⟩
    simpa using this
  · intro p hp0 hdg
    have : p ∈ acc.existing := (hexF p).mpr ⟨hp0, hdg⟩
    rw [hresrem]
    exact List.length_pos.mpr (List.ne_nil_of_mem this)

/-- C1: after a completed sync, the set of `relative_path` values in the
documents table equals exactly the set of supported-extension files under
the root whose extracted-and-optionally-cleaned text is non-empty after
stripping whitespace. -/
theorem index_library_path_invariant (hp uc : Bool) (now : Nat)
    (fs : List FsEntry) (db0 : List Doc) (res : SyncSummary)
    (hfs : (fs.map FsEntry.relPath).Nodup) (hdb0 : (db0.map Doc.path).Nodup)
    (h : index_library hp uc now fs db0 = .ok res) :
    ∀ p, p ∈ res.db.map Doc.path ↔
      ∃ e ∈ fs, GoodFile hp uc e ∧ e.relPath = p :=
  (index_library_char hfs hdb0 h).1

/-- Witness inputs for the sync theorems: one good text file. -/
def fsA : List FsEntry :=
  [⟨"library/a.txt".data, true, ".txt".data, true, "ward lore".data⟩]

/-- The summary the witness run produces. -/
def sumA : SyncSummary :=
  ⟨1, 0, 0, 1, 1, [⟨"A".data, "library/a.txt".data, "ward lore".data, 0, 0⟩]⟩

example : index_library true true 0 fsA [] = .ok sumA := by rfl

/-- Witness for C1 at the concrete run `fsA` over an empty table. -/
theorem index_library_path_invariant_witness :
    (index_library true true 0 fsA [] = .ok sumA) ∧
      ("library/a.txt".data ∈ sumA.db.map Doc.path ↔
        ∃ e ∈ fsA, GoodFile true true e ∧ e.relPath = "library/a.txt".data) :=
  ⟨by rfl,
   index_library_path_invariant true true 0 fsA [] sumA (by decide) (by decide)
     (by rfl) "library/a.txt".data⟩

/-- Counterexample to C2 as stated: a previously indexed document whose
file still exists but now extracts to whitespace-only text is deleted by
the stale-record pass and counted as removed (the scan skips the file
before removing its path from the `existing` working set). -/
theorem index_library_empty_extraction_counterexample :
    index_library true true 1
      [⟨"library/a.txt".data, true, ".txt".data, true, "   ".data⟩]
      [⟨"A".data, "library/a.txt".data, "old".data, 0, 0⟩] =
    .ok ⟨0, 0, 1, 0, 1, []⟩ := by rfl

/-- C2 (amended): when a previously indexed file still exists under the
root but now extracts to empty/whitespace-only text, a completed sync
deletes that document's record during the stale-record pass and counts it
as removed. -/
theorem index_library_empty_extraction_deletes (hp uc : Bool) (now : Nat)
    (fs : List FsEntry) (db0 : List Doc) (res : SyncSummary) (e : FsEntry) (d : Doc)
    (hfs : (fs.map FsEntry.relPath).Nodup) (hdb0 : (db0.map Doc.path).Nodup)
    (h : index_library hp uc now fs db0 = .ok res)
    (he : e ∈ fs) (hfile : e.isFile = true) (hext : e.extLower ∈ supportedExts hp)
    (hempty : ∀ t, extract_text uc e = .ok t → pyStrip t = [])
    (hd : d ∈ db0) (hdp : d.path = e.relPath) :
    e.relPath ∉ res.db.map Doc.path ∧ 1 ≤ res.removed := by
  obtain ⟨hchar, -, -, hrem⟩ := index_library_char hfs hdb0 h
  have hng : ¬ DoneGood hp uc fs e.relPath := by
    rintro ⟨e', he', hg', hrel'⟩
    have hee : e' = e := List.inj_on_of_nodup_map hfs he' he (by rw [hrel'])
    subst hee
    obtain ⟨-, -, t, ht, hne⟩ := hg'
    exact hne (hempty t ht)
  refine ⟨fun hmem => hng ((hchar _).mp hmem), ?_⟩
  exact hrem e.relPath (hdp ▸ List.mem_map_of_mem Doc.path hd) hng

/-- Witness for the amended C2 at the concrete run of
`index_library_empty_extraction_counterexample`. -/
theorem index_library_empty_extraction_deletes_witness :
    "library/a.txt".data ∉
        (SyncSummary.db ⟨0, 0, 1, 0, 1, []⟩).map Doc.path ∧
      1 ≤ SyncSummary.removed ⟨0, 0, 1, 0, 1, ([] : List Doc)⟩ :=
  index_library_empty_extraction_deletes true true 1
    [⟨"library/a.txt".data, true, ".txt".data, true, "   ".data⟩]
    [⟨"A".data, "library/a.txt".data, "old".data, 0, 0⟩]
    ⟨0, 0, 1, 0, 1, []⟩
    ⟨"library/a.txt".data, true, ".txt".data, true, "   ".data⟩
    ⟨"A".data, "library/a.txt".data, "old".data, 0, 0⟩
    (by decide) (by decide) (by rfl) (by decide) (by decide) (by decide)
    (fun t ht => by
      have : pyStrip (clean_text "   ".data) = [] := by decide
      have ht' : t = clean_text "   ".data := by
        have := ht.symm.trans (rfl :
          extract_text true ⟨"library/a.txt".data, true, ".txt".data, true, "   ".data⟩ =
            .ok (clean_text "   ".data))
        injection this
      rw [ht']
      decide)
    (by decide) (by decide)

/-- Splitting `DoneGood` over a cons. -/
theorem DoneGood_cons {hp uc : Bool} {e : FsEntry} {rest : List FsEntry}
    {p : List Char} :
    DoneGood hp uc (e :: rest) p ↔
      (GoodFile hp uc e ∧ e.relPath = p) ∨ DoneGood hp uc rest p := by
  simp only [DoneGood, List.mem_cons]
  constructor
  · rintro ⟨x, rfl | hx, hg, hrel⟩
    · exact Or.inl ⟨hg, hrel⟩
    · exact Or.inr ⟨x, hx, hg, hrel⟩
  · rintro (⟨hg, hrel⟩ | ⟨x, hx, hg, hrel⟩)
    · exact ⟨e, Or.inl rfl, hg, hrel⟩
    · exact ⟨x, Or.inr hx, hg, hrel⟩

/-- A successful fold performed extraction successfully on every scanned
file with a supported extension. -/
theorem syncFold_ok_extract (hp uc : Bool) (now : Nat) :
    ∀ (pending : List FsEntry) (acc accF : SyncAcc),
    List.foldlM (syncStep hp uc now) acc pending = .ok accF →
    ∀ e ∈ pending, e.isFile = true → e.extLower ∈ supportedExts hp →
      ∃ t, extract_text uc e = .ok t := by
  intro pending
  induction pending with
  | nil =>
    intro acc accF h e he
    simp at he
  | cons e rest ih =>
    intro acc accF h e' he' h1 h2
    obtain ⟨acc', hstep, hrest⟩ := foldlM_cons_ok h
    rcases List.mem_cons.mp he' with rfl | hmem
    · cases hextract : extract_text uc e' with
      | error err =>
        cases err
        rw [syncStep_err h1 h2 hextract] at hstep
        cases hstep
      | ok t => exact ⟨t, rfl⟩
    · exact ih acc' accF hrest e' hmem h1 h2

/-- A second scan over an unchanged filesystem whose good files are all
already stored with matching content leaves the table untouched and the
counters at their initial values, and pops exactly the good paths from
the working set. -/
theorem syncFold_stable (hp uc : Bool) (now : Nat) (D : List Doc)
    (hnD : (D.map Doc.path).Nodup) :
    ∀ (pending : List FsEntry) (acc : SyncAcc),
    acc.db = D →
    (pending.map FsEntry.relPath).Nodup →
    acc.existing.Nodup →
    (∀ e ∈ pending, GoodFile hp uc e →
      (e.relPath ∈ acc.existing ∧
        ∃ d ∈ D, d.path = e.relPath ∧ d.content = extractedText uc e)) →
    (∀ e ∈ pending, e.isFile = true → e.extLower ∈ supportedExts hp →
      ∃ t, extract_text uc e = .ok t) →
    ∃ accF, List.foldlM (syncStep hp uc now) acc pending = .ok accF ∧
      accF.db = D ∧ accF.inserted = acc.inserted ∧ accF.updated = acc.updated ∧
      accF.existing.Nodup ∧
      (∀ p, p ∈ accF.existing ↔
        (p ∈ acc.existing ∧ ¬ DoneGood hp uc pending p)) := by
  intro pending
  induction pending with
  | nil =>
    intro acc hdb hpn hexn hgood hok
    refine ⟨acc, rfl, hdb, rfl, rfl, hexn, fun p => ?_⟩
    simp [DoneGood]
  | cons e rest ih =>
    intro acc hdb hpn hexn hgood hok
    rw [List.map_cons] at hpn
    obtain ⟨hrelnotin, hrestn⟩ := List.nodup_cons.mp hpn
    by_cases hfile : e.isFile = true
    case neg =>
      have hfile' : e.isFile = false := by simpa using hfile
      have hng : ¬ GoodFile hp uc e := fun hg => by rw [hg.1] at hfile'; cases hfile'
      obtain ⟨accF, hfold, h1, h2, h3, h4, h5⟩ := ih acc hdb hrestn hexn
        (fun e' he' hg => hgood e' (List.mem_cons_of_mem _ he') hg)
        (fun e' he' => hok e' (List.mem_cons_of_mem _ he'))
      refine ⟨accF, ?_, h1, h2, h3, h4, fun p => ?_⟩
      · rw [List.foldlM_cons, syncStep_notFile hfile']
        exact hfold
      · rw [h5 p, DoneGood_cons]
        constructor
        · rintro ⟨hm, hnd⟩
          refine ⟨hm, ?_⟩
          rintro (⟨hg, -⟩ | hh)
          exacts [hng hg, hnd hh]
        · rintro ⟨hm, hnd⟩
          exact ⟨hm, fun hh => hnd (Or.inr hh)⟩
    case pos =>
      by_cases hext : e.extLower ∈ supportedExts hp
      case neg =>
        have hng : ¬ GoodFile hp uc e := fun hg => hext hg.2.1
        obtain ⟨accF, hfold, h1, h2, h3, h4, h5⟩ := ih acc hdb hrestn hexn
          (fun e' he' hg => hgood e' (List.mem_cons_of_mem _ he') hg)
          (fun e' he' => hok e' (List.mem_cons_of_mem _ he'))
        refine ⟨accF, ?_, h1, h2, h3, h4, fun p => ?_⟩
        · rw [List.foldlM_cons, syncStep_extNot hfile hext]
          exact hfold
        · rw [h5 p, DoneGood_cons]
          constructor
          · rintro ⟨hm, hnd⟩
            refine ⟨hm, ?_⟩
            rintro (⟨hg, -⟩ | hh)
            exacts [hng hg, hnd hh]
          · rintro ⟨hm, hnd⟩
            exact ⟨hm, fun hh => hnd (Or.inr hh)⟩
      case pos =>
        obtain ⟨t, hextract⟩ := hok e (List.mem_cons_self _ _) hfile hext
        by_cases hempty : pyStrip t = []
        · have hng : ¬ GoodFile hp uc e := by
            rintro ⟨-, -, t', ht', hne⟩
            rw [hextract] at ht'
            injection ht' with h
            exact hne (h ▸ hempty)
          obtain ⟨accF, hfold, h1, h2, h3, h4, h5⟩ :=
            ih { acc with fileCount := acc.fileCount + 1 } hdb hrestn hexn
              (fun e' he' hg => hgood e' (List.mem_cons_of_mem _ he') hg)
              (fun e' he' => hok e' (List.mem_cons_of_mem _ he'))
          refine ⟨accF, ?_, h1, h2, h3, h4, fun p => ?_⟩
          · rw [List.foldlM_cons, syncStep_empty hfile hext hextract hempty]
            exact hfold
          · rw [h5 p, DoneGood_cons]
            constructor
            · rintro ⟨hm, hnd⟩
              refine ⟨hm, ?_⟩
              rintro (⟨hg, -⟩ | hh)
              exacts [hng hg, hnd hh]
            · rintro ⟨hm, hnd⟩
              exact ⟨hm, fun hh => hnd (Or.inr hh)⟩
        · have hgoodE : GoodFile hp uc e := ⟨hfile, hext, t, hextract, hempty⟩
          obtain ⟨hmem, d, hdD, hdpath, hdcont⟩ :=
            hgood e (List.mem_cons_self _ _) hgoodE
          have hext_t : extractedText uc e = t := extractedText_eq hextract
          have hfind : acc.db.find? (fun x => decide (x.path = e.relPath)) = some d := by
            rw [hdb]
            exact find?_eq_some_of_mem_nodup hnD hdD hdpath
          have hceq : d.content = t := by rw [hdcont, hext_t]
          obtain ⟨accF, hfold, h1, h2, h3, h4, h5⟩ :=
            ih ⟨acc.db, acc.existing.erase e.relPath, acc.inserted, acc.updated,
                acc.fileCount + 1⟩ hdb hrestn (hexn.erase _)
              (fun e' he' hg => by
                obtain ⟨hm, hd'⟩ := hgood e' (List.mem_cons_of_mem _ he') hg
                refine ⟨?_, hd'⟩
                have hne : e'.relPath ≠ e.relPath := fun hh =>
                  hrelnotin (hh ▸ List.mem_map_of_mem FsEntry.relPath he')
                exact (List.Nodup.mem_erase_iff hexn).mpr ⟨hne, hm⟩)
              (fun e' he' => hok e' (List.mem_cons_of_mem _ he'))
          refine ⟨accF, ?_, h1, h2, h3, h4, fun p => ?_⟩
          · rw [List.foldlM_cons,
              syncStep_nochange hfile hext hextract hempty hmem hfind hceq]
            exact hfold
          · rw [h5 p, DoneGood_cons]
            have herase : p ∈ acc.existing.erase e.relPath ↔
                p ≠ e.relPath ∧ p ∈ acc.existing := List.Nodup.mem_erase_iff hexn
            constructor
            · rintro ⟨hm, hnd⟩
              obtain ⟨hne, hm'⟩ := herase.mp hm
              refine ⟨hm', ?_⟩
              rintro (⟨-, hrel⟩ | hh)
              exacts [hne hrel.symm, hnd hh]
            · rintro ⟨hm, hnd⟩
              refine ⟨herase.mpr ⟨fun hpe => hnd (Or.inl ⟨hgoodE, hpe.symm⟩), hm⟩, ?_⟩
              exact fun hh => hnd (Or.inr hh)

/-- C3: sync is idempotent — a second run over an unchanged filesystem
reports `inserted = 0`, `updated = 0`, `removed = 0`. -/
theorem index_library_idempotent (hp uc : Bool) (now1 now2 : Nat)
    (fs : List FsEntry) (db0 : List Doc) (r1 : SyncSummary)
    (hfs : (fs.map FsEntry.relPath).Nodup) (hdb0 : (db0.map Doc.path).Nodup)
    (h1 : index_library hp uc now1 fs db0 = .ok r1) :
    ∃ r2, index_library hp uc now2 fs r1.db = .ok r2 ∧
      r2.inserted = 0 ∧ r2.updated = 0 ∧ r2.removed = 0 := by
  obtain ⟨hchar, hnod1, hcont1, -⟩ := index_library_char hfs hdb0 h1
  obtain ⟨acc1, hfold1, -, -, -, -⟩ := index_library_ok_destruct h1
  have hok : ∀ e ∈ fs, e.isFile = true → e.extLower ∈ supportedExts hp →
      ∃ t, extract_text uc e = .ok t :=
    syncFold_ok_extract hp uc now1 fs _ _ hfold1
  obtain ⟨accF, hfold2, hdbF, hinsF, hupdF, -, hexF⟩ :=
    syncFold_stable hp uc now2 r1.db hnod1 fs
      ⟨r1.db, r1.db.map Doc.path, 0, 0, 0⟩ rfl hfs hnod1
      (fun e he hg => ⟨(hchar e.relPath).mpr ⟨e, he, hg, rfl⟩, hcont1 e he hg⟩)
      hok
  have hempty : accF.existing = [] := by
    rw [List.eq_nil_iff_forall_not_mem]
    intro p hpmem
    obtain ⟨hp1, hp2⟩ := (hexF p).mp hpmem
    exact hp2 ((hchar p).mp hp1)
  have heq : index_library hp uc now2 fs r1.db = .ok
      { inserted := accF.inserted, updated := accF.updated,
        removed := accF.existing.length,
        total_docs := (accF.db.filter (fun d => decide (d.path ∉ accF.existing))).length,
        files_scanned := accF.fileCount,
        db := accF.db.filter (fun d => decide (d.path ∉ accF.existing)) } := by
    unfold index_library
    rw [hfold2]
  exact ⟨_, heq, hinsF, hupdF, by simp [hempty]⟩

/-- Witness for C3 at the concrete run `fsA`: the second sync reports no
changes. -/
theorem index_library_idempotent_witness :
    (index_library true true 0 fsA [] = .ok sumA) ∧
      ∃ r2, index_library true true 5 fsA sumA.db = .ok r2 ∧
        r2.inserted = 0 ∧ r2.updated = 0 ∧ r2.removed = 0 :=
  ⟨by rfl,
   index_library_idempotent true true 0 5 fsA [] sumA (by decide) (by decide) (by rfl)⟩

/-- C8 is violated by the code for text files: an unreadable `.txt` file
makes `read_text_file` raise the same I/O error inside its `except`
branch, `index_library` has no handler, and the whole sync aborts with no
summary.  The model evaluates the sync at such a file. -/
theorem index_library_unreadable_aborts :
    index_library true true 0
      [⟨"library/broken.txt".data, true, ".txt".data, false, []⟩] [] =
    .error () := by rfl

/-- By contrast a failing PDF is swallowed (`read_pdf_file` catches all
its errors and yields `""`), the file is skipped, and a summary is still
returned — the failure policy only breaks on text files. -/
example :
    index_library true true 0
      [⟨"library/broken.pdf".data, true, ".pdf".data, false, []⟩] [] =
    .ok ⟨0, 0, 0, 0, 1, []⟩ := by rfl

/-! ## Facets (`_facet_counts` / `api_facets`, src/spellcaster_portal.py
lines 124-130 and 921-975)

The search-side state is a `Store`: the `documents` rows (with their
rowids) and the `facet_meta` rows, including the cached `doc_count`
column.  The FTS5 `MATCH` of a disjunction of prefix terms is external
SQLite behaviour; it is modelled from the spec: the default unicode61
tokenizer splits `title` and `content` into maximal alphanumeric runs and
lowercases them, `k*` matches a document iff some token has `k` as a
prefix, a bare token `k` iff some token equals `k`, and `OR` is
disjunction; `COUNT(*)` counts the matching documents.  The
`sqlite3.OperationalError` fallback to a `LIKE` scan is unreachable in
the model (the built query is well-formed), and both branches read only
document content, never `facet_meta.doc_count`. -/

/-- A `documents` row as the search side sees it. -/
structure SDoc where
  id : Nat
  title : List Char
  path : List Char
  content : List Char
deriving DecidableEq

/-- A `facet_meta` row: name, poem, song and the cached `doc_count`. -/
structure FacetMetaRow where
  name : List Char
  poem : List Char
  song : List Char
  doc_count : Nat
deriving DecidableEq

/-- The database state the facet and search endpoints read. -/
structure Store where
  docs : List SDoc
  facetMeta : List FacetMetaRow
deriving DecidableEq

/-- The FTS5 unicode61 tokenizer, modelled on the ASCII range: maximal
runs of alphanumeric characters, lowercased. -/
def ftsTokensGo (cur : List Char) : List Char → List (List Char)
  | [] => if cur = [] then [] else [cur]
  | c :: rest =>
    if c.isAlphanum then ftsTokensGo (cur ++ [c.toLower]) rest
    else if cur = [] then ftsTokensGo [] rest
    else cur :: ftsTokensGo [] rest

/-- See `ftsTokensGo`. -/
def ftsTokens (s : List Char) : List (List Char) := ftsTokensGo [] s

example : ftsTokens "A silver Mirror, wards!".data =
  ["a".data, "silver".data, "mirror".data, "wards".data] := by decide

/-- The tokens of a document over both indexed columns (`docs_fts` holds
`title` and `content`; an unqualified query matches either). -/
def docTokens (d : SDoc) : List (List Char) :=
  ftsTokens d.title ++ ftsTokens d.content

/-- One keyword of the disjunction built by `_facet_counts`: keywords
longer than 2 characters become prefix terms `kw*`, short ones stay
literal tokens — the same rule 4.5 uses. -/
def matchesKw (kw : List Char) (d : SDoc) : Bool :=
  if 2 < kw.length then (docTokens d).any (fun t => kw.isPrefixOf t)
  else (docTokens d).any (fun t => t = kw)

/-- The whole `OR` disjunction for one facet. -/
def matchesFacet (kws : List (List Char)) (d : SDoc) : Bool :=
  kws.any (fun kw => matchesKw kw d)

/-- `SELECT COUNT(*) FROM docs_fts WHERE docs_fts MATCH ?`. -/
def facetCount (docs : List SDoc) (kws : List (List Char)) : Nat :=
  (docs.filter (fun d => matchesFacet kws d)).length

/-- `FACET_DEFS["Protection"]` (line 129). -/
def protectionKws : List (List Char) :=
  ["protection".data, "ward".data, "shield".data, "banish".data,
   "circle".data, "sigil".data]

/-- `FACET_DEFS` (lines 124-130). -/
def FACET_DEFS : List (List Char × List (List Char)) :=
  [("Spells".data,
    ["spell".data, "incantation".data, "invocation".data, "conjure".data]),
   ("Remedies".data,
    ["remedy".data, "salve".data, "ointment".data, "treatment".data, "herb".data]),
   ("Potions".data,
    ["potion".data, "elixir".data, "tincture".data, "brew".data]),
   ("Cures".data,
    ["cure".data, "healing".data, "heal".data, "antidote".data]),
   ("Protection".data, protectionKws)]

/-- `_facet_counts` (lines 921-950): one live count per facet, computed
from the document content only — the function never reads
`facet_meta`. -/
def facet_counts (st : Store) : List (List Char × Nat) :=
  FACET_DEFS.map (fun f => (f.1, facetCount st.docs f.2))

/-- `api_facets` (lines 952-975): the stored poems/songs (`SELECT name,
poem, song FROM facet_meta` — the cached `doc_count` column is not
selected) together with the live counts from `_facet_counts`. -/
def api_facets (st : Store) :
    (List (List Char × Nat)) × (List (List Char × List Char × List Char)) :=
  (facet_counts st, st.facetMeta.map (fun r => (r.name, r.poem, r.song)))

/-- Reading one facet's count out of the returned mapping. -/
def countOf (l : List (List Char × Nat)) (name : List Char) : Nat :=
  match l.find? (fun x => decide (x.1 = name)) with
  | some x => x.2
  | none => 0

/-- C6: facet counts are computed fresh from the current documents on
every `facets()` call — the result is independent of the cached
`facet_meta.doc_count` values — and inserting a new document whose
content contains the word "ward" increments the reported "Protection"
count by exactly one, with no recount step in between. -/
theorem api_facets_live_counts :
    (∀ docs m m', (api_facets ⟨docs, m⟩).1 = (api_facets ⟨docs, m'⟩).1) ∧
    (∀ (docs : List SDoc) (m : List FacetMetaRow) (d : SDoc),
      "ward".data ∈ ftsTokens d.content →
      countOf (api_facets ⟨docs ++ [d], m⟩).1 "Protection".data =
        countOf (api_facets ⟨docs, m⟩).1 "Protection".data + 1) := by
  constructor
  · intro docs m m'
    rfl
  · intro docs m d hward
    have hmatch : matchesFacet protectionKws d = true := by
      unfold matchesFacet
      rw [List.any_eq_true]
      refine ⟨"ward".data, by decide, ?_⟩
      unfold matchesKw
      rw [if_pos (by decide), List.any_eq_true]
      exact ⟨"ward".data, List.mem_append_right _ hward, by decide⟩
    have h1 : countOf (api_facets ⟨docs ++ [d], m⟩).1 "Protection".data =
        facetCount (docs ++ [d]) protectionKws := rfl
    have h2 : countOf (api_facets ⟨docs, m⟩).1 "Protection".data =
        facetCount docs protectionKws := rfl
    rw [h1, h2]
    unfold facetCount
    rw [List.filter_append]
    simp [hmatch]

/-- Witness for C6 at a concrete document containing the word "ward". -/
theorem api_facets_live_counts_witness :
    "ward".data ∈ ftsTokens "a ward b".data ∧
      countOf (api_facets ⟨[] ++ [⟨1, "T".data, "p".data, "a ward b".data⟩],
          [⟨"Protection".data, [], [], 99⟩]⟩).1 "Protection".data =
        countOf (api_facets ⟨[], [⟨"Protection".data, [], [], 99⟩]⟩).1
          "Protection".data + 1 :=
  ⟨by decide,
   api_facets_live_counts.2 [] [⟨"Protection".data, [], [], 99⟩]
     ⟨1, "T".data, "p".data, "a ward b".data⟩ (by decide)⟩

/-! ## Search (`api_search`, src/spellcaster_portal.py lines 851-917)

The primary path — the FTS `MATCH` query, including its ranking-disabled
retry on `sqlite3.OperationalError` — runs inside external SQLite; its
result rows are supplied to the model as the `rows` argument.  The claim
under verification concerns the code around it: when the substring
fallback runs, and what it builds. -/

/-- A search result row. -/
structure SRow where
  id : Nat
  title : List Char
  path : List Char
  snippet : List Char
  rank : Int
deriving DecidableEq

/-- Python `str.lower()` on the ASCII range. -/
def toLowerL (s : List Char) : List Char := s.map Char.toLower

/-- The three sequential `snippet.replace` calls escaping `&`, `<`, `>`.
Replacing `&` first introduces no new `<`/`>`, and the later replacements
introduce no new `&` outside their own output, so the three passes equal
this single pass. -/
def htmlEscape : List Char → List Char
  | [] => []
  | c :: rest =>
    (if c = '&' then "&amp;".data
     else if c = '<' then "&lt;".data
     else if c = '>' then "&gt;".data
     else [c]) ++ htmlEscape rest

example : htmlEscape "a<b&c>d".data = "a&lt;b&amp;c&gt;d".data := by decide

/-- Python `str.find`: index of the first occurrence, `none` for -1. -/
def strFind (hay needle : List Char) : Option Nat :=
  match hay with
  | [] => if needle = [] then some 0 else none
  | _ :: rest =>
    if needle.isPrefixOf hay then some 0
    else (strFind rest needle).map (· + 1)

example : strFind "hello".data "ll".data = some 2 := by decide
example : strFind "hello".data "z".data = none := by decide

/-- SQL `LIKE`: `%` matches any run, `_` any one character, anything else
itself (no ESCAPE clause is used; both operands are already lowercased by
the query).  The fuel argument only drives structural recursion: every
step consumes a pattern or text character, so `pattern.length +
text.length + 1` fuel never runs out. -/
def likeMatchF : Nat → List Char → List Char → Bool
  | 0, _, _ => false
  | _ + 1, [], [] => true
  | _ + 1, [], _ :: _ => false
  | fuel + 1, p :: ps, t =>
    if p = '%' then
      likeMatchF fuel ps t ||
        (match t with
         | [] => false
         | _ :: ts => likeMatchF fuel (p :: ps) ts)
    else
      match t with
      | [] => false
      | c :: ts => (p = '_' || p = c) && likeMatchF fuel ps ts

/-- See `likeMatchF`. -/
def likeMatch (pattern text : List Char) : Bool :=
  likeMatchF (pattern.length + text.length + 1) pattern text

example : likeMatch "%a&b%".data "xx a&b yy".data = true := by decide
example : likeMatch "%a_c%".data "zzabczz".data = true := by decide
example : likeMatch "%q%".data "xyz".data = false := by decide

/-- The `<mark>` insertion (lines 903-906): re-find the query inside the
escaped window and wrap that occurrence; when the query no longer occurs
(because escaping rewrote it), the snippet is left unhighlighted. -/
def markSnippet (q_raw esc : List Char) : List Char :=
  match strFind (toLowerL esc) (toLowerL q_raw) with
  | some p =>
    esc.take p ++ "<mark>".data ++ ((esc.drop p).take q_raw.length) ++
      "</mark>".data ++ esc.drop (p + q_raw.length)
  | none => esc

/-- One document's fallback row (lines 892-915): find the first
case-insensitive occurrence, cut a 90-character context window, escape
it, insert the highlight, wrap in ellipses, rank 0.  `pos - 90` is `Nat`
subtraction, i.e. `max(0, pos - 90)`. -/
def likeRow (q_raw : List Char) (r : SDoc) : Option SRow :=
  match strFind (toLowerL r.content) (toLowerL q_raw) with
  | none => none
  | some pos =>
    some ⟨r.id, r.title, r.path,
      '…' :: (markSnippet q_raw
        (htmlEscape ((r.content.take
          (min r.content.length (pos + q_raw.length + 90))).drop (pos - 90)))
        ++ ['…']), 0⟩

/-- The substring-fallback scan (lines 885-915): `lower(content) LIKE
lower('%q%') LIMIT 100`, then the per-row snippet construction. -/
def likeFallback (docs : List SDoc) (q_raw : List Char) : List SRow :=
  ((docs.filter (fun r =>
      likeMatch ('%' :: (toLowerL q_raw ++ ['%'])) (toLowerL r.content))).take 100
    ).filterMap (likeRow q_raw)

/-- `api_search` (lines 851-917) around the external FTS query `rows`:
empty stripped query short-circuits to `[]`; the fallback runs only when
the primary path returned no rows and the flag is on. -/
def api_search (rows : List SRow) (docs : List SDoc) (qParam : List Char)
    (includeLike : Bool) : List SRow :=
  if pyStrip qParam = [] then []
  else if rows ≠ [] ∨ includeLike = false then rows
  else likeFallback docs (pyStrip qParam)

example :
    api_search [] [⟨1, "T".data, "p".data, "x <b> ward y".data⟩] "ward".data true =
      [⟨1, "T".data, "p".data, "…x &lt;b&gt; <mark>ward</mark> y…".data, 0⟩] := by
  decide

/-- Counterexample to C9 as stated: a fallback result whose matched
substring is NOT wrapped in a highlight marker.  The query `a&b` matches
the raw content, but the context window is HTML-escaped before the query
is re-located in it, and `a&b` does not occur in `a&amp;b`, so the row is
returned (rank 0, escaped snippet) with no `<mark>` at all. -/
theorem api_search_fallback_no_mark :
    api_search [] [⟨1, "T".data, "p".data, "xx a&b yy".data⟩] "a&b".data true =
      [⟨1, "T".data, "p".data, "…xx a&amp;b yy…".data, 0⟩] ∧
    strFind "…xx a&amp;b yy…".data "<mark>".data = none := by
  exact ⟨by decide, by decide⟩

/-- C9 (amended): the fallback is not taken when the primary path
returned at least one row or the flag is disabled; when it is taken,
every returned row has rank 0 and carries the HTML-escaped context
window, with the matched substring wrapped in `<mark>…</mark>` whenever
the query text still occurs in the escaped window (queries containing
`&`, `<` or `>` may come back escaped but unhighlighted, see
`api_search_fallback_no_mark`). -/
theorem api_search_fallback_spec :
    (∀ (rows : List SRow) (docs : List SDoc) (q : List Char) (inc : Bool),
      pyStrip q ≠ [] → rows ≠ [] → api_search rows docs q inc = rows) ∧
    (∀ (rows : List SRow) (docs : List SDoc) (q : List Char),
      pyStrip q ≠ [] → api_search rows docs q false = rows) ∧
    (∀ (docs : List SDoc) (q : List Char) (r : SRow),
      r ∈ api_search [] docs q true → r.rank = 0) ∧
    (api_search [] [⟨1, "T".data, "p".data, "x <b> ward y".data⟩] "ward".data true =
      [⟨1, "T".data, "p".data, "…x &lt;b&gt; <mark>ward</mark> y…".data, 0⟩]) := by
  refine ⟨?_, ?_, ?_, by decide⟩
  · intro rows docs q inc hq hrows
    unfold api_search
    rw [if_neg hq, if_pos (Or.inl hrows)]
  · intro rows docs q hq
    unfold api_search
    rw [if_neg hq, if_pos (Or.inr rfl)]
  · intro docs q r hr
    unfold api_search at hr
    split at hr
    · simp at hr
    · split at hr
      · rename_i hcond
        rcases hcond with h | h
        · exact absurd rfl h
        · cases h
      · unfold likeFallback at hr
        obtain ⟨a, ha, hfa⟩ := List.mem_filterMap.mp hr
        unfold likeRow at hfa
        cases hfind : strFind (toLowerL a.content) (toLowerL (pyStrip q)) with
        | none => rw [hfind] at hfa; cases hfa
        | some pos =>
          rw [hfind] at hfa
          injection hfa with h
          rw [← h]

/-- Witness for the amended C9: its first branch applied at a concrete
non-empty primary result. -/
theorem api_search_fallback_spec_witness :
    (pyStrip "ward".data ≠ [] ∧ [(⟨1, [], [], [], 0⟩ : SRow)] ≠ []) ∧
      api_search [⟨1, [], [], [], 0⟩] [] "ward".data true = [⟨1, [], [], [], 0⟩] :=
  ⟨⟨by decide, by decide⟩,
   api_search_fallback_spec.1 [⟨1, [], [], [], 0⟩] [] "ward".data true
     (by decide) (by decide)⟩

/-! ## Single-document fast path (`index_single_pdf`,
src/spellcaster_portal.py lines 384-439) -/

/-- The argument of `index_single_pdf`: the checks it performs on the
path before touching the file. -/
structure PdfArg where
  present : Bool
  isFile : Bool
  extLower : List Char
deriving DecidableEq

/-- The status dict `index_single_pdf` returns. -/
structure SingleResult where
  status : List Char
  reason : Option (List Char)
deriving DecidableEq

/-- `index_single_pdf` (src/spellcaster_portal.py lines 384-439).  The
module's imports (lines 16-37) never import `hashlib`, so for any
existing `.pdf` file the call `hashlib.md5(data)` at line 398 raises
`NameError` — "name hashlib is not defined" (apostrophes elided) — which
the blanket `except Exception` at line 429 turns into a status "error"
result with `reason = str(e)`.  (Independently, the `documents` schema at
lines 86-93 has columns `path`/`content` but no `relpath`, `hash` or
`kind` column, so even with `hashlib` imported the `SELECT id, hash FROM
documents WHERE relpath = ?` at line 409 would raise
`sqlite3.OperationalError`, likewise caught and turned into "error".)
The function can therefore never reach the "skipped/unchanged" or
"indexed" outcomes of its docstring. -/
def index_single_pdf (f : PdfArg) : SingleResult :=
  if f.present = false ∨ f.isFile = false then
    ⟨"error".data, some "file_not_found".data⟩
  else if f.extLower ≠ ".pdf".data then
    ⟨"skipped".data, some "not_pdf".data⟩
  else
    ⟨"error".data, some "name hashlib is not defined".data⟩

/-- C7 is violated by the code: for a valid existing `.pdf` the function
returns status "error" (never "indexed" or "skipped"/"unchanged"),
because the `NameError` on the missing `hashlib` import is caught by the
blanket handler.  No input at all can produce status "indexed". -/
theorem index_single_pdf_always_error :
    (index_single_pdf ⟨true, true, ".pdf".data⟩ =
      ⟨"error".data, some "name hashlib is not defined".data⟩) ∧
    (∀ f : PdfArg, (index_single_pdf f).status ≠ "indexed".data) := by
  refine ⟨by decide, ?_⟩
  intro f
  unfold index_single_pdf
  split
  · decide
  · split
    · decide
    · decide

end Spellcaster
